import Mathlib

/-!
Font drawing and UTF-8 decoding of `kernel/font.cpp`

A shallow embedding of the functions of `kernel/font.cpp`
(`GetFont`, `WriteAscii`, `WriteString`, `CountUTF8Size`, `ConvertUTF8To32`,
`IsHankaku`, `WriteUnicode`, `InitializeFont`) together with theorems about
them.

Conventions of the embedding.

* A `char` object is represented by its byte, a natural number `0..255`
  (two's complement for the negative values of the signed 8-bit `char` of the
  x86-64 target).  Conversions out of `char` are explicit: `toUInt8` and
  `charToU32`.
* A `const char*` is represented by the function `i ↦ p[i]`.
* `char32_t`, `unsigned int` are naturals reduced modulo `2^32` where an
  operation could leave the range.
* An `int` coordinate is an integer, and the addition of two coordinates is
  reduced to 32 bits in two's complement (`wrapInt32`), which is what the
  x86-64 code computes when the mathematical sum leaves the range of `int`
  (the language leaves that case undefined).  The cell counter `x` of
  `WriteString` is kept as the mathematical count: it reaches the output only
  through `pos + {8 * x, 0}`, whose coordinates the addition reduces, so the
  positions written are those of 32-bit arithmetic throughout.
* A `PixelWriter` only receives `Write (pos, color)` calls and is never read,
  so the effect of a drawing function is the sequence of the `Write` calls it
  issues.
-/

namespace Font

/-! ## Integer conversions -/

/-- Conversion of a `char` to `uint8_t`: the value modulo 256. -/
def toUInt8 (c : Nat) : Nat := c % 256

/-- Conversion of a `char` to a 32-bit unsigned type
(`static_cast<char32_t>(c)`, `static_cast<unsigned int>(c)`).  `char` is a
signed 8-bit type, so bytes `0x80..0xFF` are negative and are sign-extended. -/
def charToU32 (c : Nat) : Nat :=
  if c % 256 < 128 then c % 256 else c % 256 + (2 ^ 32 - 256)

/-- Left shift on a 32-bit unsigned value. -/
def shl32 (a k : Nat) : Nat := (a <<< k) % 2 ^ 32

/-! ## The UTF-8 decoder -/

/-- Embedding of `int CountUTF8Size(uint8_t c)`. -/
def CountUTF8Size (c : Nat) : Nat :=
  if c < 0x80 then 1
  else if 0xc0 ≤ c ∧ c < 0xe0 then 2
  else if 0xe0 ≤ c ∧ c < 0xf0 then 3
  else if 0xf0 ≤ c ∧ c < 0xf8 then 4
  else 0

/-- Embedding of `std::pair<char32_t, int> ConvertUTF8To32(const char* u8)`.
The argument is the pointer, as the function `i ↦ u8[i]`; only the bytes the
selected case names are read. -/
def ConvertUTF8To32 (u8 : Nat → Nat) : Nat × Nat :=
  match CountUTF8Size (toUInt8 (u8 0)) with
  | 1 => (charToU32 (u8 0), 1)
  | 2 =>
    (shl32 (charToU32 (u8 0) &&& 0b00011111) 6 |||
     shl32 (charToU32 (u8 1) &&& 0b00111111) 0, 2)
  | 3 =>
    (shl32 (charToU32 (u8 0) &&& 0b00001111) 12 |||
     shl32 (charToU32 (u8 1) &&& 0b00111111) 6 |||
     shl32 (charToU32 (u8 2) &&& 0b00111111) 0, 3)
  | 4 =>
    (shl32 (charToU32 (u8 0) &&& 0b00000111) 18 |||
     shl32 (charToU32 (u8 1) &&& 0b00111111) 12 |||
     shl32 (charToU32 (u8 2) &&& 0b00111111) 6 |||
     shl32 (charToU32 (u8 3) &&& 0b00111111) 0, 4)
  | _ => (0, 0)

/-- Embedding of `bool IsHankaku(char32_t c)`. -/
def IsHankaku (c : Nat) : Bool := decide (c ≤ 0x7f)

/-! ## Glyph lookup and drawing -/

/-- A `Vector2D<int>`: a pair of `int` coordinates. -/
structure Vector2D where
  x : Int
  y : Int
deriving DecidableEq, Repr

/-- The value of an `int` computation reduced to 32 bits in two's complement:
the identity on `-2^31 .. 2^31 - 1`, and the wrapped value outside. -/
def wrapInt32 (z : Int) : Int := (z + 2 ^ 31) % 2 ^ 32 - 2 ^ 31

/-- The `operator+` of `Vector2D<int>`: componentwise addition of `int`s. -/
instance : Add Vector2D := ⟨fun a b => ⟨wrapInt32 (a.x + b.x), wrapInt32 (a.y + b.y)⟩⟩

/-- One call `writer.Write(pos, color)` received by the `PixelWriter`. -/
structure PixelWrite (Color : Type) where
  pos : Vector2D
  color : Color
deriving DecidableEq, Repr

/-- The embedded font `hankaku.bin` as the linker symbols of the source
present it: `size` is the value of `&_binary_hankaku_bin_size` (a `uintptr_t`)
and `byte i` is the `uint8_t` stored at `&_binary_hankaku_bin_start + i`.
The blob itself is not part of the source file and is a parameter. -/
structure FontBlob where
  size : Nat
  byte : Nat → Nat

/-- Embedding of `const uint8_t* GetFont(char c)`.  The result is the offset of
the returned pointer from `&_binary_hankaku_bin_start`, or `none` for
`nullptr`.  `index` is an `unsigned int`: the product wraps modulo `2^32`. -/
def GetFont (font : FontBlob) (c : Nat) : Option Nat :=
  let index := (16 * charToU32 c) % 2 ^ 32
  if index ≥ font.size then none else some index

/-- Embedding of `void WriteAscii(PixelWriter&, Vector2D<int> pos, char c,
const PixelColor& color)`: the `Write` calls issued, in order.  `font[dy]` is a
`uint8_t` promoted to `int` before the shift. -/
def WriteAscii {Color : Type} (font : FontBlob) (pos : Vector2D) (c : Nat) (color : Color) :
    List (PixelWrite Color) :=
  match GetFont font c with
  | none => []
  | some glyph =>
    (List.range 16).flatMap fun dy =>
      (List.range 8).flatMap fun dx =>
        if ((font.byte (glyph + dy) % 256) <<< dx) &&& 0x80 ≠ 0 then
          [⟨pos + ⟨(dx : Int), (dy : Int)⟩, color⟩]
        else []

/-- Conversion of a `char32_t` to the `char` parameter of `WriteAscii`. -/
def u32ToChar (c : Nat) : Nat := c % 256

/-- Embedding of `void WriteUnicode(PixelWriter&, Vector2D<int> pos,
char32_t c, const PixelColor& color)`; `0x3f` is the character `?`. -/
def WriteUnicode {Color : Type} (font : FontBlob) (pos : Vector2D) (c : Nat) (color : Color) :
    List (PixelWrite Color) :=
  if c ≤ 0x7f then WriteAscii font pos (u32ToChar c) color
  else WriteAscii font pos 0x3f color ++ WriteAscii font (pos + ⟨8, 0⟩) 0x3f color

/-! ## The string renderer -/

/-- The variables of the loop of `WriteString`: the byte cursor `s` (as an
offset from the pointer the function was called with), the cell counter `x`,
and the `Write` calls issued so far. -/
structure WriteStringState (Color : Type) where
  s : Nat
  x : Int
  writes : List (PixelWrite Color)
deriving DecidableEq, Repr

/-- One evaluation of the loop of `WriteString` from the state `st`: `none`
when the loop condition `*s` is false, otherwise the state after the body. -/
def WriteStringBody {Color : Type} (font : FontBlob) (pos : Vector2D) (str : Nat → Nat)
    (color : Color) (st : WriteStringState Color) : Option (WriteStringState Color) :=
  if str st.s % 256 = 0 then none
  else
    let r := ConvertUTF8To32 (fun i => str (st.s + i))
    some
      { s := st.s + r.2
        x := st.x + (if IsHankaku r.1 then 1 else 2)
        writes := st.writes ++ WriteUnicode font (pos + ⟨8 * st.x, 0⟩) r.1 color }

/-- The loop of `WriteString` run for at most `fuel` evaluations of its
condition: `some st` when the loop has exited in state `st`, `none` when it is
still running. -/
def WriteStringLoop {Color : Type} (font : FontBlob) (pos : Vector2D) (str : Nat → Nat)
    (color : Color) : Nat → WriteStringState Color → Option (WriteStringState Color)
  | 0, _ => none
  | fuel + 1, st =>
    match WriteStringBody font pos str color st with
    | none => some st
    | some st' => WriteStringLoop font pos str color fuel st'

/-- Embedding of `void WriteString(PixelWriter&, Vector2D<int> pos,
const char* s, const PixelColor& color)`, with the final values of the loop
variables as result. -/
def WriteString {Color : Type} (font : FontBlob) (pos : Vector2D) (str : Nat → Nat)
    (color : Color) (fuel : Nat) : Option (WriteStringState Color) :=
  WriteStringLoop font pos str color fuel ⟨0, 0, []⟩

/-! ## Byte sequences used to state the properties -/

/-- The pointer to the bytes of `l` followed in memory by the bytes `rest`. -/
def bytesThen (l : List Nat) (rest : Nat → Nat) : Nat → Nat :=
  fun i => if i < l.length then l.getD i 0 else rest (i - l.length)

/-- The standard UTF-8 encoding of a code point `cp ≤ 0x10FFFF`
(the bit layout of RFC 3629, written with division and remainder): the
reference encoder the decoder is compared with. -/
def utf8Encode (cp : Nat) : List Nat :=
  if cp ≤ 0x7F then [cp]
  else if cp ≤ 0x7FF then [0xC0 + cp / 64, 0x80 + cp % 64]
  else if cp ≤ 0xFFFF then [0xE0 + cp / 4096, 0x80 + cp / 64 % 64, 0x80 + cp % 64]
  else [0xF0 + cp / 262144, 0x80 + cp / 4096 % 64, 0x80 + cp / 64 % 64, 0x80 + cp % 64]

/-- The memory of a C string: the bytes of `l`, the terminator `0`, then the
bytes `rest`. -/
def cstr (l : List Nat) (rest : Nat → Nat) : Nat → Nat :=
  bytesThen (l ++ [0]) rest

/-! ## Observations on a run of the string renderer -/

/-- The state of the loop of `WriteString` after `n` executions of its body,
started in `st`: `none` when the loop has exited before. -/
def WriteStringIter {Color : Type} (font : FontBlob) (pos : Vector2D) (str : Nat → Nat)
    (color : Color) : Nat → WriteStringState Color → Option (WriteStringState Color)
  | 0, st => some st
  | n + 1, st =>
    match WriteStringBody font pos str color st with
    | none => none
    | some st' => WriteStringIter font pos str color n st'

/-- The number of character cells of a code point: 1 up to `0x7F`, 2 above. -/
def cellWidth (c : Nat) : Int := if c ≤ 0x7F then 1 else 2

/-- Modelled from the spec: the `PixelWriter` collaborator is not part of the
source file; the specification gives it the contract `Write(position, color)`
on a surface that maps positions to colors.  One `Write` sets the color of one
position and leaves the others as they are. -/
def surfaceWrite {Color : Type} (surface : Vector2D → Color) (w : PixelWrite Color) :
    Vector2D → Color :=
  fun q => if q = w.pos then w.color else surface q

/-- The surface after a sequence of `Write` calls, in order. -/
def applyWrites {Color : Type} (surface : Vector2D → Color) (ws : List (PixelWrite Color)) :
    Vector2D → Color :=
  ws.foldl surfaceWrite surface

/-! ## The font asset loader -/

/-- A directory entry of the file system; `InitializeFont` reads only its
field `file_size`. -/
structure DirectoryEntry where
  file_size : Nat
deriving DecidableEq, Repr

/-- How a call of `InitializeFont` ends: with `exit(status)`, where `allocated`
and `freed` tell whether the buffer `nihongo_buf` had been allocated and
deleted before, or by returning with the global `nihongo_buf` pointing to a
vector of the given bytes. -/
inductive InitializeFontEnd where
  | exited (status : Int) (allocated : Bool) (freed : Bool)
  | returned (nihongo_buf : List Nat)
deriving DecidableEq, Repr

/-- Embedding of `void InitializeFont()`.  The collaborators are not part of
the source file and are parameters: `ftInit` is the value returned by
`FT_Init_FreeType(&ft_library)`, `findFile` the pair returned by
`fat::FindFile("/nihongo.ttf")` (`none` for a null entry), and
`loadFile len entry` describes the call `LoadFile(buf, len, entry)` on the
freshly allocated buffer: the bytes `i ↦ buf[i]` it leaves in the buffer and the
number it returns.  The vector has `size` elements whatever `LoadFile` does. -/
def InitializeFont (ftInit : Int) (findFile : Option DirectoryEntry × Bool)
    (loadFile : Nat → DirectoryEntry → (Nat → Nat) × Nat) : InitializeFontEnd :=
  if ftInit ≠ 0 then .exited 1 false false
  else
    match findFile with
    | (none, _) => .exited 1 false false
    | (some entry, pos_slash) =>
      if pos_slash then .exited 1 false false
      else
        let size := entry.file_size
        let loaded := loadFile size entry
        if loaded.2 ≠ size then .exited 1 true true
        else .returned ((List.range size).map loaded.1)

/-! ## Arithmetic of the bit operations -/

theorem charToU32_and_63 (c : Nat) : charToU32 c &&& 0b00111111 = c % 64 := by
  have h := Nat.and_pow_two_sub_one_eq_mod (charToU32 c) 6
  norm_num at h
  rw [h]; unfold charToU32; split <;> omega

theorem charToU32_and_31 (c : Nat) : charToU32 c &&& 0b00011111 = c % 32 := by
  have h := Nat.and_pow_two_sub_one_eq_mod (charToU32 c) 5
  norm_num at h
  rw [h]; unfold charToU32; split <;> omega

theorem charToU32_and_15 (c : Nat) : charToU32 c &&& 0b00001111 = c % 16 := by
  have h := Nat.and_pow_two_sub_one_eq_mod (charToU32 c) 4
  norm_num at h
  rw [h]; unfold charToU32; split <;> omega

theorem charToU32_and_7 (c : Nat) : charToU32 c &&& 0b00000111 = c % 8 := by
  have h := Nat.and_pow_two_sub_one_eq_mod (charToU32 c) 3
  norm_num at h
  rw [h]; unfold charToU32; split <;> omega

theorem shl32_eq (a k : Nat) (h : a * 2 ^ k < 2 ^ 32) : shl32 a k = a * 2 ^ k := by
  unfold shl32
  rw [Nat.shiftLeft_eq, Nat.mod_eq_of_lt h]

theorem or_low (a b k : Nat) (hb : b < 2 ^ k) : a * 2 ^ k ||| b = a * 2 ^ k + b := by
  rw [Nat.mul_comm a (2 ^ k)]
  exact (Nat.mul_add_lt_is_or hb a).symm

theorem pack2 (a b : Nat) (ha : a < 32) (hb : b < 64) :
    shl32 a 6 ||| shl32 b 0 = a * 64 + b := by
  rw [shl32_eq a 6 (by omega), shl32_eq b 0 (by omega)]
  have := or_low a b 6 (by omega)
  norm_num at this ⊢
  exact this

theorem pack3 (a b c : Nat) (ha : a < 16) (hb : b < 64) (hc : c < 64) :
    shl32 a 12 ||| shl32 b 6 ||| shl32 c 0 = a * 4096 + b * 64 + c := by
  rw [shl32_eq a 12 (by omega), shl32_eq b 6 (by omega), shl32_eq c 0 (by omega)]
  have h1 : a * 2 ^ 12 ||| b * 2 ^ 6 = (a * 64 + b) * 2 ^ 6 := by
    rw [or_low a (b * 2 ^ 6) 12 (by omega)]; omega
  have h2 := or_low (a * 64 + b) c 6 (by omega)
  rw [h1, Nat.pow_zero, Nat.mul_one, h2]; omega

theorem pack4 (a b c d : Nat) (ha : a < 8) (hb : b < 64) (hc : c < 64) (hd : d < 64) :
    shl32 a 18 ||| shl32 b 12 ||| shl32 c 6 ||| shl32 d 0 =
      a * 262144 + b * 4096 + c * 64 + d := by
  rw [shl32_eq a 18 (by omega), shl32_eq b 12 (by omega), shl32_eq c 6 (by omega),
    shl32_eq d 0 (by omega)]
  have h1 : a * 2 ^ 18 ||| b * 2 ^ 12 = (a * 64 + b) * 2 ^ 12 := by
    rw [or_low a (b * 2 ^ 12) 18 (by omega)]; omega
  have h2 : (a * 64 + b) * 2 ^ 12 ||| c * 2 ^ 6 = ((a * 64 + b) * 64 + c) * 2 ^ 6 := by
    rw [or_low (a * 64 + b) (c * 2 ^ 6) 12 (by omega)]; omega
  have h3 := or_low ((a * 64 + b) * 64 + c) d 6 (by omega)
  rw [h1, h2, Nat.pow_zero, Nat.mul_one, h3]; omega

/-! ## The decoder in closed form -/

theorem CountUTF8Size_le (c : Nat) : CountUTF8Size c ≤ 4 := by
  unfold CountUTF8Size; split_ifs <;> omega

theorem ConvertUTF8To32_one (u8 : Nat → Nat) (h : u8 0 % 256 < 0x80) :
    ConvertUTF8To32 u8 = (u8 0 % 256, 1) := by
  have hc : CountUTF8Size (toUInt8 (u8 0)) = 1 := by
    unfold CountUTF8Size toUInt8; rw [if_pos h]
  have hv : charToU32 (u8 0) = u8 0 % 256 := by
    unfold charToU32; rw [if_pos (by omega)]
  simp only [ConvertUTF8To32, hc, hv]

theorem ConvertUTF8To32_two (u8 : Nat → Nat) (h : 0xc0 ≤ u8 0 % 256 ∧ u8 0 % 256 < 0xe0) :
    ConvertUTF8To32 u8 = (u8 0 % 32 * 64 + u8 1 % 64, 2) := by
  have hc : CountUTF8Size (toUInt8 (u8 0)) = 2 := by
    unfold CountUTF8Size toUInt8; rw [if_neg (by omega), if_pos h]
  simp only [ConvertUTF8To32, hc, charToU32_and_31, charToU32_and_63]
  rw [pack2 _ _ (Nat.mod_lt _ (by norm_num)) (Nat.mod_lt _ (by norm_num))]

theorem ConvertUTF8To32_three (u8 : Nat → Nat) (h : 0xe0 ≤ u8 0 % 256 ∧ u8 0 % 256 < 0xf0) :
    ConvertUTF8To32 u8 = (u8 0 % 16 * 4096 + u8 1 % 64 * 64 + u8 2 % 64, 3) := by
  have hc : CountUTF8Size (toUInt8 (u8 0)) = 3 := by
    unfold CountUTF8Size toUInt8
    rw [if_neg (by omega), if_neg (by omega), if_pos h]
  simp only [ConvertUTF8To32, hc, charToU32_and_15, charToU32_and_63]
  rw [pack3 _ _ _ (Nat.mod_lt _ (by norm_num)) (Nat.mod_lt _ (by norm_num))
    (Nat.mod_lt _ (by norm_num))]

theorem ConvertUTF8To32_four (u8 : Nat → Nat) (h : 0xf0 ≤ u8 0 % 256 ∧ u8 0 % 256 < 0xf8) :
    ConvertUTF8To32 u8 =
      (u8 0 % 8 * 262144 + u8 1 % 64 * 4096 + u8 2 % 64 * 64 + u8 3 % 64, 4) := by
  have hc : CountUTF8Size (toUInt8 (u8 0)) = 4 := by
    unfold CountUTF8Size toUInt8
    rw [if_neg (by omega), if_neg (by omega), if_neg (by omega), if_pos h]
  simp only [ConvertUTF8To32, hc, charToU32_and_7, charToU32_and_63]
  rw [pack4 _ _ _ _ (Nat.mod_lt _ (by norm_num)) (Nat.mod_lt _ (by norm_num))
    (Nat.mod_lt _ (by norm_num)) (Nat.mod_lt _ (by norm_num))]

theorem ConvertUTF8To32_invalid (u8 : Nat → Nat)
    (h : (0x80 ≤ u8 0 % 256 ∧ u8 0 % 256 < 0xc0) ∨ 0xf8 ≤ u8 0 % 256) :
    ConvertUTF8To32 u8 = (0, 0) := by
  have hc : CountUTF8Size (toUInt8 (u8 0)) = 0 := by
    unfold CountUTF8Size toUInt8
    rw [if_neg (by omega), if_neg (by omega), if_neg (by omega), if_neg (by omega)]
  simp only [ConvertUTF8To32, hc]

/-! ## Reading from `bytesThen` -/

theorem bytesThen_nil (rest : Nat → Nat) (i : Nat) : bytesThen [] rest i = rest i := by
  simp [bytesThen]

theorem bytesThen_cons_zero (a : Nat) (l : List Nat) (rest : Nat → Nat) :
    bytesThen (a :: l) rest 0 = a := by
  simp [bytesThen]

theorem bytesThen_cons_succ (a : Nat) (l : List Nat) (rest : Nat → Nat) (i : Nat) :
    bytesThen (a :: l) rest (i + 1) = bytesThen l rest i := by
  simp [bytesThen]

theorem bytesThen_cons_one (a : Nat) (l : List Nat) (rest : Nat → Nat) :
    bytesThen (a :: l) rest 1 = bytesThen l rest 0 :=
  bytesThen_cons_succ a l rest 0

theorem bytesThen_cons_two (a : Nat) (l : List Nat) (rest : Nat → Nat) :
    bytesThen (a :: l) rest 2 = bytesThen l rest 1 :=
  bytesThen_cons_succ a l rest 1

theorem bytesThen_cons_three (a : Nat) (l : List Nat) (rest : Nat → Nat) :
    bytesThen (a :: l) rest 3 = bytesThen l rest 2 :=
  bytesThen_cons_succ a l rest 2

/-! ## The decoder: claims C1 to C5 -/

/-- The reference encoder on the usual examples: `©`, `€` and an emoji. -/
theorem utf8Encode_examples :
    utf8Encode 0x41 = [0x41] ∧ utf8Encode 0xA9 = [0xC2, 0xA9] ∧
      utf8Encode 0x20AC = [0xE2, 0x82, 0xAC] ∧
      utf8Encode 0x1F600 = [0xF0, 0x9F, 0x98, 0x80] := by
  decide

/-- C1: for every code point `cp` in `0..0x10FFFF`, `ConvertUTF8To32` applied to
the standard UTF-8 encoding of `cp`, followed by any bytes, returns `(cp, n)`
where `n` is the number of bytes of the encoding: 1 for `cp ≤ 0x7F`, 2 for
`cp ≤ 0x7FF`, 3 for `cp ≤ 0xFFFF` and 4 otherwise. -/
theorem C1_decode_utf8Encode (cp : Nat) (hcp : cp ≤ 0x10FFFF) (rest : Nat → Nat) :
    ConvertUTF8To32 (bytesThen (utf8Encode cp) rest) = (cp, (utf8Encode cp).length) ∧
      (utf8Encode cp).length =
        (if cp ≤ 0x7F then 1 else if cp ≤ 0x7FF then 2 else if cp ≤ 0xFFFF then 3 else 4) := by
  unfold utf8Encode
  by_cases h1 : cp ≤ 0x7F
  · simp only [if_pos h1, List.length_cons, List.length_nil, and_true]
    rw [ConvertUTF8To32_one _ (by rw [bytesThen_cons_zero]; omega), bytesThen_cons_zero]
    congr 1; omega
  by_cases h2 : cp ≤ 0x7FF
  · simp only [if_neg h1, if_pos h2, List.length_cons, List.length_nil, and_true]
    rw [ConvertUTF8To32_two _ (by rw [bytesThen_cons_zero]; omega)]
    simp only [bytesThen_cons_zero, bytesThen_cons_one]
    congr 1; omega
  by_cases h3 : cp ≤ 0xFFFF
  · simp only [if_neg h1, if_neg h2, if_pos h3, List.length_cons, List.length_nil, and_true]
    rw [ConvertUTF8To32_three _ (by rw [bytesThen_cons_zero]; omega)]
    simp only [bytesThen_cons_zero, bytesThen_cons_one, bytesThen_cons_two]
    congr 1; omega
  · simp only [if_neg h1, if_neg h2, if_neg h3, List.length_cons, List.length_nil, and_true]
    rw [ConvertUTF8To32_four _ (by rw [bytesThen_cons_zero]; omega)]
    simp only [bytesThen_cons_zero, bytesThen_cons_one, bytesThen_cons_two,
      bytesThen_cons_three]
    congr 1; omega

/-- Witness of C1 at the code point `0x20AC` (the euro sign, three bytes). -/
theorem C1_decode_utf8Encode_witness :
    (0x20AC : Nat) ≤ 0x10FFFF ∧
      ConvertUTF8To32 (bytesThen (utf8Encode 0x20AC) (fun _ => 0x41)) =
        (0x20AC, (utf8Encode 0x20AC).length) ∧
      (utf8Encode 0x20AC).length = 3 :=
  ⟨by decide, C1_decode_utf8Encode 0x20AC (by decide) (fun _ => 0x41)⟩

/-- C2: for a lead byte `b0` in `0xC0..0xDF`, `0xE0..0xEF` or `0xF0..0xF7`
followed by the 1, 2 or 3 continuation bytes of its class, each in `0x80..0xBF`,
`ConvertUTF8To32` returns the length 2, 3 or 4 of the class and the code point
of the standard bit-packing: the low 5, 4 or 3 bits of `b0` are the highest
bits, and each continuation byte in turn appends its low 6 bits below them. -/
theorem C2_decode_multibyte (u8 : Nat → Nat) (hlead : 0xC0 ≤ u8 0 ∧ u8 0 ≤ 0xF7)
    (_hcont : ∀ i, 1 ≤ i → i < CountUTF8Size (u8 0) → 0x80 ≤ u8 i ∧ u8 i ≤ 0xBF) :
    ConvertUTF8To32 u8 =
      if u8 0 ≤ 0xDF then (u8 0 % 2 ^ 5 * 2 ^ 6 + u8 1 % 2 ^ 6, 2)
      else if u8 0 ≤ 0xEF then ((u8 0 % 2 ^ 4 * 2 ^ 6 + u8 1 % 2 ^ 6) * 2 ^ 6 + u8 2 % 2 ^ 6, 3)
      else
        (((u8 0 % 2 ^ 3 * 2 ^ 6 + u8 1 % 2 ^ 6) * 2 ^ 6 + u8 2 % 2 ^ 6) * 2 ^ 6 + u8 3 % 2 ^ 6,
          4) := by
  by_cases h2 : u8 0 ≤ 0xDF
  · rw [if_pos h2, ConvertUTF8To32_two u8 (by omega)]
    norm_num
  by_cases h3 : u8 0 ≤ 0xEF
  · rw [if_neg h2, if_pos h3, ConvertUTF8To32_three u8 (by omega)]
    congr 1; omega
  · rw [if_neg h2, if_neg h3, ConvertUTF8To32_four u8 (by omega)]
    congr 1; omega

/-- Witness of C2 at the bytes `0xC2 0xA9` of the specification's example:
they decode to the code point `0xA9` with length 2. -/
theorem C2_decode_multibyte_witness :
    ConvertUTF8To32 (bytesThen [0xC2, 0xA9] (fun _ => 0)) = (0xA9, 2) :=
  C2_decode_multibyte (bytesThen [0xC2, 0xA9] (fun _ => 0)) (by decide)
    (by
      intro i h1 h2
      have hi : i = 1 := by
        have : CountUTF8Size (bytesThen [0xC2, 0xA9] (fun _ => 0) 0) = 2 := by decide
        omega
      subst hi
      decide)

/-- C3: the byte length returned by `ConvertUTF8To32` is `CountUTF8Size` of the
first byte, hence a function of the first byte alone, given by the table
`0x00..0x7F ↦ 1`, `0xC0..0xDF ↦ 2`, `0xE0..0xEF ↦ 3`, `0xF0..0xF7 ↦ 4`, every
other byte (`0x80..0xBF`, `0xF8..0xFF`) `↦ 0`; it is always one of 0, 1, 2, 3, 4. -/
theorem C3_length_from_first_byte (u8 : Nat → Nat) (hb : u8 0 < 256) :
    (ConvertUTF8To32 u8).2 = CountUTF8Size (u8 0) ∧
      (∀ v8 : Nat → Nat, v8 0 = u8 0 → (ConvertUTF8To32 v8).2 = (ConvertUTF8To32 u8).2) ∧
      (u8 0 ≤ 0x7F → (ConvertUTF8To32 u8).2 = 1) ∧
      (0xC0 ≤ u8 0 ∧ u8 0 ≤ 0xDF → (ConvertUTF8To32 u8).2 = 2) ∧
      (0xE0 ≤ u8 0 ∧ u8 0 ≤ 0xEF → (ConvertUTF8To32 u8).2 = 3) ∧
      (0xF0 ≤ u8 0 ∧ u8 0 ≤ 0xF7 → (ConvertUTF8To32 u8).2 = 4) ∧
      ((0x80 ≤ u8 0 ∧ u8 0 ≤ 0xBF) ∨ (0xF8 ≤ u8 0 ∧ u8 0 ≤ 0xFF) →
        (ConvertUTF8To32 u8).2 = 0) ∧
      (ConvertUTF8To32 u8).2 ∈ ({0, 1, 2, 3, 4} : Finset Nat) := by
  have key : ∀ w8 : Nat → Nat, w8 0 < 256 →
      (ConvertUTF8To32 w8).2 = CountUTF8Size (w8 0) := by
    intro w8 hw
    have hm : w8 0 % 256 = w8 0 := Nat.mod_eq_of_lt hw
    by_cases h1 : w8 0 < 0x80
    · rw [ConvertUTF8To32_one w8 (by omega)]; unfold CountUTF8Size; rw [if_pos h1]
    by_cases h2 : 0xc0 ≤ w8 0 ∧ w8 0 < 0xe0
    · rw [ConvertUTF8To32_two w8 (by omega)]; unfold CountUTF8Size
      rw [if_neg h1, if_pos h2]
    by_cases h3 : 0xe0 ≤ w8 0 ∧ w8 0 < 0xf0
    · rw [ConvertUTF8To32_three w8 (by omega)]; unfold CountUTF8Size
      rw [if_neg h1, if_neg h2, if_pos h3]
    by_cases h4 : 0xf0 ≤ w8 0 ∧ w8 0 < 0xf8
    · rw [ConvertUTF8To32_four w8 (by omega)]; unfold CountUTF8Size
      rw [if_neg h1, if_neg h2, if_neg h3, if_pos h4]
    · rw [ConvertUTF8To32_invalid w8 (by omega)]; unfold CountUTF8Size
      rw [if_neg h1, if_neg h2, if_neg h3, if_neg h4]
  rw [key u8 hb]
  refine ⟨rfl, ?_, ?_, ?_, ?_, ?_, ?_, ?_⟩
  · intro v8 hv
    rw [key v8 (by omega), hv]
  · intro h; unfold CountUTF8Size; rw [if_pos (by omega)]
  · intro h; unfold CountUTF8Size; rw [if_neg (by omega), if_pos (by omega)]
  · intro h; unfold CountUTF8Size; rw [if_neg (by omega), if_neg (by omega), if_pos (by omega)]
  · intro h; unfold CountUTF8Size
    rw [if_neg (by omega), if_neg (by omega), if_neg (by omega), if_pos (by omega)]
  · intro h; unfold CountUTF8Size
    rw [if_neg (by omega), if_neg (by omega), if_neg (by omega), if_neg (by omega)]
  · have := CountUTF8Size_le (u8 0)
    simp only [Finset.mem_insert, Finset.mem_singleton]
    omega

/-- Witness of C3 at the bytes `0xE3 0x81 0x82`: the length is 3. -/
theorem C3_length_from_first_byte_witness :
    bytesThen [0xE3, 0x81, 0x82] (fun _ => 0) 0 < 256 ∧
      (ConvertUTF8To32 (bytesThen [0xE3, 0x81, 0x82] (fun _ => 0))).2 = 3 :=
  ⟨by decide,
    (C3_length_from_first_byte (bytesThen [0xE3, 0x81, 0x82] (fun _ => 0))
      (by decide)).2.2.2.2.1 (by decide)⟩

/-- C4: when the first byte is not a valid lead byte (it is in `0x80..0xBF` or
in `0xF8..0xFF`), `ConvertUTF8To32` returns the sentinel pair `(0, 0)`,
whatever bytes follow. -/
theorem C4_invalid_lead_sentinel (u8 : Nat → Nat)
    (h : (0x80 ≤ u8 0 ∧ u8 0 ≤ 0xBF) ∨ (0xF8 ≤ u8 0 ∧ u8 0 ≤ 0xFF)) :
    ConvertUTF8To32 u8 = (0, 0) :=
  ConvertUTF8To32_invalid u8 (by omega)

/-- Witness of C4 at the lone continuation byte `0x80` of the specification. -/
theorem C4_invalid_lead_sentinel_witness :
    ConvertUTF8To32 (bytesThen [0x80] (fun _ => 0x41)) = (0, 0) :=
  C4_invalid_lead_sentinel (bytesThen [0x80] (fun _ => 0x41)) (by decide)

/-- C5: when the first byte `v` is in `0x00..0x7F`, `ConvertUTF8To32` returns
`(v, 1)`, whatever bytes follow. -/
theorem C5_single_byte (u8 : Nat → Nat) (h : u8 0 ≤ 0x7F) :
    ConvertUTF8To32 u8 = (u8 0, 1) := by
  rw [ConvertUTF8To32_one u8 (by omega)]
  congr 1; omega

/-- Witness of C5 at the byte `0x41` (the letter `A`) followed by other bytes. -/
theorem C5_single_byte_witness :
    ConvertUTF8To32 (bytesThen [0x41] (fun _ => 0xC3)) = (0x41, 1) :=
  C5_single_byte (bytesThen [0x41] (fun _ => 0xC3)) (by decide)

/-! ## Glyph lookup and drawing: helper lemmas -/

theorem charToU32_of_lt (c : Nat) (h : c < 128) : charToU32 c = c := by
  unfold charToU32; rw [if_pos (by omega)]; omega

theorem charToU32_of_ge (c : Nat) (h1 : 128 ≤ c) (h2 : c < 256) :
    charToU32 c = c + (2 ^ 32 - 256) := by
  unfold charToU32; rw [if_neg (by omega)]; omega

/-- For a non-negative `char` the index computed by `GetFont` is `16 * c`. -/
theorem GetFont_of_lt (font : FontBlob) (c : Nat) (h : c < 128) :
    GetFont font c = if font.size ≤ 16 * c then none else some (16 * c) := by
  unfold GetFont
  rw [charToU32_of_lt c h]
  have : 16 * c % 2 ^ 32 = 16 * c := Nat.mod_eq_of_lt (by omega)
  simp only [this, ge_iff_le]

/-- For a negative `char` (bytes `0x80..0xFF`) the sign extension makes the
index `2^32 - 4096 + 16 * c`. -/
theorem GetFont_of_ge (font : FontBlob) (c : Nat) (h1 : 128 ≤ c) (h2 : c < 256) :
    GetFont font c =
      if font.size ≤ 2 ^ 32 - 4096 + 16 * c then none else some (2 ^ 32 - 4096 + 16 * c) := by
  unfold GetFont
  rw [charToU32_of_ge c h1 h2]
  have : 16 * (c + (2 ^ 32 - 256)) % 2 ^ 32 = 2 ^ 32 - 4096 + 16 * c := by omega
  simp only [this, ge_iff_le]

theorem wrapInt32_add_left (a b : Int) : wrapInt32 (wrapInt32 a + b) = wrapInt32 (a + b) := by
  unfold wrapInt32; omega

/-- Adding the zero vector first does not change a later sum. -/
theorem Vector2D.add_zero_add (pos q : Vector2D) : pos + ⟨0, 0⟩ + q = pos + q := by
  show Vector2D.mk (wrapInt32 (wrapInt32 (pos.x + 0) + q.x))
      (wrapInt32 (wrapInt32 (pos.y + 0) + q.y)) =
    Vector2D.mk (wrapInt32 (pos.x + q.x)) (wrapInt32 (pos.y + q.y))
  rw [wrapInt32_add_left, wrapInt32_add_left, Int.add_zero, Int.add_zero]

/-- The test `(font[dy] << dx) & 0x80u` of `WriteAscii` reads bit `7 - dx`. -/
theorem shift_and_0x80 (v dx : Nat) (hdx : dx < 8) :
    (v <<< dx) &&& 0x80 ≠ 0 ↔ v.testBit (7 - dx) = true := by
  have h := Nat.and_two_pow (v <<< dx) 7
  norm_num at h
  have hd : decide (dx ≤ 7) = true := by simp; omega
  rw [h, hd, Bool.true_and]
  cases v.testBit (7 - dx) <;> simp

/-- The `Write` calls of `WriteAscii` for a found glyph: one for each set bit. -/
theorem mem_WriteAscii {Color : Type} (font : FontBlob) (pos : Vector2D) (c : Nat)
    (color : Color) (g : Nat) (hg : GetFont font c = some g) (w : PixelWrite Color) :
    w ∈ WriteAscii font pos c color ↔
      ∃ dx dy : Nat, dx < 8 ∧ dy < 16 ∧ (font.byte (g + dy) % 256).testBit (7 - dx) = true ∧
        w = ⟨pos + ⟨(dx : Int), (dy : Int)⟩, color⟩ := by
  simp only [WriteAscii, hg, List.mem_flatMap, List.mem_range]
  constructor
  · rintro ⟨dy, hdy, dx, hdx, hw⟩
    by_cases hb : (font.byte (g + dy) % 256) <<< dx &&& 0x80 ≠ 0
    · rw [if_pos hb, List.mem_singleton] at hw
      exact ⟨dx, dy, hdx, hdy, (shift_and_0x80 _ dx hdx).mp hb, hw⟩
    · rw [if_neg hb] at hw
      exact absurd hw (List.not_mem_nil _)
  · rintro ⟨dx, dy, hdx, hdy, hb, hw⟩
    refine ⟨dy, hdy, dx, hdx, ?_⟩
    rw [if_pos ((shift_and_0x80 _ dx hdx).mpr hb), List.mem_singleton]
    exact hw

/-- The position argument of `WriteAscii` is used only in sums, so a zero
vector added to it beforehand changes nothing. -/
theorem WriteAscii_add_zero {Color : Type} (font : FontBlob) (pos : Vector2D) (c : Nat)
    (color : Color) :
    WriteAscii font (pos + ⟨0, 0⟩) c color = WriteAscii font pos c color := by
  unfold WriteAscii
  simp only [Vector2D.add_zero_add]

/-- The `Write` calls of `WriteAscii` for a found glyph, in order: one for each
offset `(dx, dy)` of a set bit, the offsets taken row after row and from left
to right within a row. -/
theorem WriteAscii_offsets {Color : Type} (font : FontBlob) (pos : Vector2D) (c : Nat)
    (color : Color) (g : Nat) (hg : GetFont font c = some g) :
    ∃ offs : List (Nat × Nat),
      WriteAscii font pos c color =
        offs.map (fun d => ⟨pos + ⟨(d.1 : Int), (d.2 : Int)⟩, color⟩) ∧
      offs.Pairwise (fun a b => a.2 < b.2 ∨ (a.2 = b.2 ∧ a.1 < b.1)) ∧
      ∀ dx dy : Nat, (dx, dy) ∈ offs ↔
        dx < 8 ∧ dy < 16 ∧ (font.byte (g + dy) % 256).testBit (7 - dx) = true := by
  refine ⟨(List.range 16).flatMap fun dy => (List.range 8).flatMap fun dx =>
    if ((font.byte (g + dy) % 256) <<< dx) &&& 0x80 ≠ 0 then [(dx, dy)] else [], ?_, ?_, ?_⟩
  · simp only [WriteAscii, hg, List.map_flatMap]
    congr 1
    funext dy
    congr 1
    funext dx
    split <;> rfl
  · rw [List.pairwise_flatMap]
    constructor
    · intro dy _
      rw [List.pairwise_flatMap]
      constructor
      · intro dx _
        split
        · exact List.pairwise_singleton _ _
        · exact List.Pairwise.nil
      · refine List.Pairwise.imp ?_ (List.pairwise_lt_range 8)
        intro dx1 dx2 hlt a ha b hb
        split at ha
        · split at hb
          · rw [List.mem_singleton] at ha hb
            subst ha; subst hb
            exact Or.inr ⟨rfl, hlt⟩
          · exact absurd hb (List.not_mem_nil _)
        · exact absurd ha (List.not_mem_nil _)
    · refine List.Pairwise.imp ?_ (List.pairwise_lt_range 16)
      intro dy1 dy2 hlt a ha b hb
      rw [List.mem_flatMap] at ha hb
      obtain ⟨dx1, _, ha⟩ := ha
      obtain ⟨dx2, _, hb⟩ := hb
      split at ha
      · split at hb
        · rw [List.mem_singleton] at ha hb
          subst ha; subst hb
          exact Or.inl hlt
        · exact absurd hb (List.not_mem_nil _)
      · exact absurd ha (List.not_mem_nil _)
  · intro dx dy
    simp only [List.mem_flatMap, List.mem_range]
    constructor
    · rintro ⟨dy', hdy, dx', hdx, hm⟩
      by_cases hb : (font.byte (g + dy') % 256) <<< dx' &&& 0x80 ≠ 0
      · rw [if_pos hb, List.mem_singleton, Prod.mk.injEq] at hm
        obtain ⟨rfl, rfl⟩ := hm
        exact ⟨hdx, hdy, (shift_and_0x80 _ dx hdx).mp hb⟩
      · rw [if_neg hb] at hm
        exact absurd hm (List.not_mem_nil _)
    · rintro ⟨hdx, hdy, hb⟩
      refine ⟨dy, hdy, dx, hdx, ?_⟩
      rw [if_pos ((shift_and_0x80 _ dx hdx).mpr hb)]
      exact List.mem_singleton_self _

/-! ## The string renderer: helper lemmas -/

theorem WriteUnicode_of_le {Color : Type} (font : FontBlob) (pos : Vector2D) (c : Nat)
    (color : Color) (h : c ≤ 0x7f) :
    WriteUnicode font pos c color = WriteAscii font pos c color := by
  unfold WriteUnicode u32ToChar
  rw [if_pos h, Nat.mod_eq_of_lt (by omega)]

theorem WriteStringBody_end {Color : Type} (font : FontBlob) (pos : Vector2D)
    (str : Nat → Nat) (color : Color) (st : WriteStringState Color)
    (h : str st.s % 256 = 0) : WriteStringBody font pos str color st = none := by
  unfold WriteStringBody; rw [if_pos h]

/-- The body of the loop at a byte `0x01..0x7F`: one glyph, one byte, one cell. -/
theorem WriteStringBody_ascii {Color : Type} (font : FontBlob) (pos : Vector2D)
    (str : Nat → Nat) (color : Color) (st : WriteStringState Color)
    (h1 : 1 ≤ str st.s) (h2 : str st.s ≤ 0x7f) :
    WriteStringBody font pos str color st =
      some ⟨st.s + 1, st.x + 1,
        st.writes ++ WriteAscii font (pos + ⟨8 * st.x, 0⟩) (str st.s) color⟩ := by
  have hd : ConvertUTF8To32 (fun i => str (st.s + i)) = (str st.s, 1) := by
    rw [ConvertUTF8To32_one _ (by show str (st.s + 0) % 256 < 0x80; rw [Nat.add_zero]; omega)]
    show (str (st.s + 0) % 256, 1) = (str st.s, 1)
    rw [Nat.add_zero, Nat.mod_eq_of_lt (by omega)]
  unfold WriteStringBody
  rw [if_neg (by omega)]
  simp only [hd, IsHankaku, decide_eq_true h2, if_true, WriteUnicode_of_le font _ _ color h2]

/-- The body of the loop at an invalid lead byte: the glyph of the code point 0
is drawn, the cell counter advances, and the byte cursor stays where it is. -/
theorem WriteStringBody_invalid {Color : Type} (font : FontBlob) (pos : Vector2D)
    (str : Nat → Nat) (color : Color) (st : WriteStringState Color)
    (h : (0x80 ≤ str st.s % 256 ∧ str st.s % 256 < 0xc0) ∨ 0xf8 ≤ str st.s % 256) :
    WriteStringBody font pos str color st =
      some ⟨st.s, st.x + 1, st.writes ++ WriteAscii font (pos + ⟨8 * st.x, 0⟩) 0 color⟩ := by
  have hd : ConvertUTF8To32 (fun i => str (st.s + i)) = (0, 0) :=
    ConvertUTF8To32_invalid _ (by show _ ∨ 0xf8 ≤ str (st.s + 0) % 256; exact h)
  unfold WriteStringBody
  rw [if_neg (by omega)]
  simp only [hd, IsHankaku, Nat.zero_le, decide_True, if_true, Nat.add_zero,
    WriteUnicode_of_le font _ 0 color (Nat.zero_le _)]

/-- The loop never exits once the cursor is on an invalid lead byte. -/
theorem WriteStringLoop_invalid {Color : Type} (font : FontBlob) (pos : Vector2D)
    (str : Nat → Nat) (color : Color) (p : Nat)
    (h : (0x80 ≤ str p % 256 ∧ str p % 256 < 0xc0) ∨ 0xf8 ≤ str p % 256) (fuel : Nat) :
    ∀ st : WriteStringState Color, st.s = p →
      WriteStringLoop font pos str color fuel st = none := by
  induction fuel with
  | zero => intro st _; rfl
  | succ n ih =>
    intro st hs
    unfold WriteStringLoop
    rw [WriteStringBody_invalid font pos str color st (by rw [hs]; exact h)]
    exact ih _ hs

/-! ## The string renderer and the glyphs: claims C6 to C10 -/

/-- C6 (failing input): on the null-terminated string whose only character is
the byte `0x80`, an invalid lead byte, the body of the loop of `WriteString`
adds the decoded length 0 to the byte cursor, so the cursor does not move, and
the loop has not exited after any number of iterations: `WriteString` does not
terminate on this string. -/
theorem C6_WriteString_stuck_on_invalid_lead {Color : Type} (font : FontBlob)
    (pos : Vector2D) (color : Color) (rest : Nat → Nat) :
    (∀ (x : Int) (ws : List (PixelWrite Color)),
      WriteStringBody font pos (cstr [0x80] rest) color ⟨0, x, ws⟩ =
        some ⟨0, x + 1, ws ++ WriteAscii font (pos + ⟨8 * x, 0⟩) 0 color⟩) ∧
      ∀ fuel : Nat, WriteString font pos (cstr [0x80] rest) color fuel = none := by
  have h0 : cstr [0x80] rest 0 = 0x80 := bytesThen_cons_zero _ _ _
  constructor
  · intro x ws
    exact WriteStringBody_invalid font pos _ color ⟨0, x, ws⟩ (by
      show (0x80 ≤ cstr [0x80] rest 0 % 256 ∧ _) ∨ _
      rw [h0]; decide)
  · intro fuel
    exact WriteStringLoop_invalid font pos _ color 0 (by rw [h0]; decide) fuel _ rfl

/-- C7, as stated, fails: with a 4096-byte blob (256 glyphs) the character of
byte value `0x80` has `16 * 0x80 < 4096`, yet `GetFont` returns `nullptr`: the
negative `char` is sign-extended and the index is `0xFFFFF800`. -/
theorem C7_GetFont_high_byte_not_found :
    GetFont ⟨4096, fun _ => 0⟩ 0x80 = none ∧ 16 * 0x80 < 4096 ∧
      ¬ (GetFont ⟨4096, fun _ => 0⟩ 0x80 = none ↔ 16 * 0x80 ≥ 4096) := by
  have h : GetFont ⟨4096, fun _ => 0⟩ 0x80 = none := by
    rw [GetFont_of_ge _ _ (by decide) (by decide)]; rfl
  refine ⟨h, by decide, ?_⟩
  intro hiff
  exact absurd (hiff.mp h) (by decide)

/-- C7 (amended): for every character of byte value `b` in `0..255` and every
blob size, `GetFont` returns `nullptr` whenever `16 * b ≥ blobSize`; for `b` in
`0..127` it returns `nullptr` exactly when `16 * b ≥ blobSize` and otherwise the
glyph at offset `16 * b`; in particular with a 4096-byte blob every byte value
`0..127` is found at offset `16 * b`. -/
theorem C7_GetFont_offset (font : FontBlob) (b : Nat) (hb : b < 256) :
    (16 * b ≥ font.size → GetFont font b = none) ∧
      (b ≤ 0x7F → (GetFont font b = none ↔ 16 * b ≥ font.size)) ∧
      (b ≤ 0x7F → 16 * b < font.size → GetFont font b = some (16 * b)) ∧
      (b ≤ 0x7F → font.size = 4096 → GetFont font b = some (16 * b)) := by
  have hlow : b ≤ 0x7F →
      GetFont font b = if font.size ≤ 16 * b then none else some (16 * b) :=
    fun h => GetFont_of_lt font b (by omega)
  refine ⟨?_, ?_, ?_, ?_⟩
  · intro hge
    by_cases h : b < 128
    · rw [GetFont_of_lt font b h, if_pos hge]
    · rw [GetFont_of_ge font b (by omega) hb, if_pos (by omega)]
  · intro h
    rw [hlow h]
    by_cases hs : font.size ≤ 16 * b
    · simp [hs]
    · simp [hs]
  · intro h hlt
    rw [hlow h, if_neg (by omega)]
  · intro h hsz
    rw [hlow h, if_neg (by omega)]

/-- Witness of C7 (amended) at the letter `A` and a 4096-byte blob. -/
theorem C7_GetFont_offset_witness :
    (0x41 : Nat) < 256 ∧ GetFont ⟨4096, fun _ => 0⟩ 0x41 = some 0x410 :=
  ⟨by decide,
    (C7_GetFont_offset ⟨4096, fun _ => 0⟩ 0x41 (by decide)).2.2.2 (by decide) rfl⟩

/-- C8: for a found glyph, `WriteAscii` writes the given color at
`pos + (dx, dy)` for exactly the `(dx, dy)` with `dx < 8`, `dy < 16` and bit
`7 - dx` of the row byte `dy` set, and nothing else: the writes are, in order,
those at `pos + (dx, dy)` for the offsets of the set bits, each offset once,
visited row after row from the top and from left to right within a row. -/
theorem C8_WriteAscii_pixels {Color : Type} (font : FontBlob) (pos : Vector2D) (c : Nat)
    (color : Color) (glyph : Nat) (hg : GetFont font c = some glyph) :
    (∀ w : PixelWrite Color, w ∈ WriteAscii font pos c color ↔
      ∃ dx dy : Nat, dx < 8 ∧ dy < 16 ∧
        (font.byte (glyph + dy) % 256).testBit (7 - dx) = true ∧
        w = ⟨pos + ⟨(dx : Int), (dy : Int)⟩, color⟩) ∧
      ∃ offs : List (Nat × Nat),
        WriteAscii font pos c color =
          offs.map (fun d => ⟨pos + ⟨(d.1 : Int), (d.2 : Int)⟩, color⟩) ∧
        offs.Pairwise (fun a b => a.2 < b.2 ∨ (a.2 = b.2 ∧ a.1 < b.1)) ∧
        ∀ dx dy : Nat, (dx, dy) ∈ offs ↔
          dx < 8 ∧ dy < 16 ∧ (font.byte (glyph + dy) % 256).testBit (7 - dx) = true :=
  ⟨mem_WriteAscii font pos c color glyph hg, WriteAscii_offsets font pos c color glyph hg⟩

/-- Witness of C8 at a glyph whose first row is `0x81` and second row `0x40`:
the writes are at the offsets `(0,0)`, `(7,0)`, `(1,1)` from the position, in
this order, also at the position `(2147483647, 0)`, where the sums leave the
range of `int` and the coordinates written are the wrapped ones. -/
theorem C8_WriteAscii_pixels_witness :
    GetFont ⟨4096, fun i => if i = 16 then 0x81 else if i = 17 then 0x40 else 0⟩ 1 = some 16 ∧
      WriteAscii ⟨4096, fun i => if i = 16 then 0x81 else if i = 17 then 0x40 else 0⟩
        ⟨10, 20⟩ 1 (5 : Nat) = [⟨⟨10, 20⟩, 5⟩, ⟨⟨17, 20⟩, 5⟩, ⟨⟨11, 21⟩, 5⟩] ∧
      WriteAscii ⟨4096, fun i => if i = 16 then 0x81 else if i = 17 then 0x40 else 0⟩
        ⟨2147483647, 0⟩ 1 (5 : Nat) =
        [⟨⟨2147483647, 0⟩, 5⟩, ⟨⟨-2147483642, 0⟩, 5⟩, ⟨⟨-2147483648, 1⟩, 5⟩] ∧
      ∃ offs : List (Nat × Nat),
        WriteAscii ⟨4096, fun i => if i = 16 then 0x81 else if i = 17 then 0x40 else 0⟩
          ⟨2147483647, 0⟩ 1 (5 : Nat) =
          offs.map (fun d => ⟨(⟨2147483647, 0⟩ : Vector2D) + ⟨(d.1 : Int), (d.2 : Int)⟩, 5⟩) ∧
        offs.Pairwise (fun a b => a.2 < b.2 ∨ (a.2 = b.2 ∧ a.1 < b.1)) ∧
        ∀ dx dy : Nat, (dx, dy) ∈ offs ↔
          dx < 8 ∧ dy < 16 ∧
            ((if 16 + dy = 16 then 0x81 else if 16 + dy = 17 then 0x40 else 0) % 256).testBit
              (7 - dx) = true :=
  ⟨by decide, by decide, by decide,
    (C8_WriteAscii_pixels ⟨4096, fun i => if i = 16 then 0x81 else if i = 17 then 0x40 else 0⟩
      ⟨2147483647, 0⟩ 1 (5 : Nat) 16 (by decide)).2⟩

/-- C9: for a character for which `GetFont` returns `nullptr`, `WriteAscii`
issues no write at all. -/
theorem C9_WriteAscii_not_found {Color : Type} (font : FontBlob) (pos : Vector2D) (c : Nat)
    (color : Color) (h : GetFont font c = none) : WriteAscii font pos c color = [] := by
  unfold WriteAscii
  rw [h]

/-- Witness of C9 at the letter `A` and a blob of 64 glyphs (1024 bytes). -/
theorem C9_WriteAscii_not_found_witness :
    GetFont ⟨1024, fun _ => 0xFF⟩ 0x41 = none ∧
      WriteAscii ⟨1024, fun _ => 0xFF⟩ ⟨0, 0⟩ 0x41 (1 : Nat) = [] :=
  ⟨by decide, C9_WriteAscii_not_found ⟨1024, fun _ => 0xFF⟩ ⟨0, 0⟩ 0x41 1 (by decide)⟩

/-- C10: for every character `c` in `0x01..0x7F`, `WriteString` on the string
whose only character is `c` terminates (two evaluations of the loop condition
suffice) having issued exactly the writes of `WriteAscii` for `c` at the given
position, with the byte cursor on the terminator and the cell counter at 1. -/
theorem C10_WriteString_single_ascii {Color : Type} (font : FontBlob) (pos : Vector2D)
    (color : Color) (c : Nat) (hc : 1 ≤ c ∧ c ≤ 0x7F) (rest : Nat → Nat) (fuel : Nat)
    (hfuel : 2 ≤ fuel) :
    WriteString font pos (cstr [c] rest) color fuel =
      some ⟨1, 1, WriteAscii font pos c color⟩ := by
  obtain ⟨n, rfl⟩ : ∃ n, fuel = n + 2 := ⟨fuel - 2, by omega⟩
  have h0 : cstr [c] rest 0 = c := bytesThen_cons_zero _ _ _
  have h1 : cstr [c] rest 1 = 0 := by
    show bytesThen (c :: [0]) rest 1 = 0
    rw [bytesThen_cons_one, bytesThen_cons_zero]
  unfold WriteString WriteStringLoop
  rw [WriteStringBody_ascii font pos _ color _ (by show 1 ≤ cstr [c] rest 0; omega)
    (by show cstr [c] rest 0 ≤ 0x7f; omega)]
  simp only []
  unfold WriteStringLoop
  have hend : cstr [c] rest (0 + 1) % 256 = 0 := by rw [Nat.zero_add, h1]
  rw [WriteStringBody_end font pos _ color _ hend]
  simp only [h0, List.nil_append, Int.mul_zero, Vector2D.add_zero_add, WriteAscii_add_zero, Nat.zero_add,
    Int.zero_add]

/-- Witness of C10 at the string `"A"` of the specification. -/
theorem C10_WriteString_single_ascii_witness :
    WriteString ⟨4096, fun i => if i = 0x410 then 0x18 else 0⟩ ⟨0, 0⟩
        (cstr [0x41] (fun _ => 0xFF)) (7 : Nat) 2 =
      some ⟨1, 1, [⟨⟨3, 0⟩, 7⟩, ⟨⟨4, 0⟩, 7⟩]⟩ :=
  (C10_WriteString_single_ascii ⟨4096, fun i => if i = 0x410 then 0x18 else 0⟩ ⟨0, 0⟩
    (7 : Nat) 0x41 (by decide) (fun _ => 0xFF) 2 (by decide)).trans (by decide)

/-! ## More on the decoder: what it reads -/

/-- The five classes of a first byte. -/
theorem lead_byte_cases (b : Nat) :
    b % 256 < 0x80 ∨ (0xc0 ≤ b % 256 ∧ b % 256 < 0xe0) ∨ (0xe0 ≤ b % 256 ∧ b % 256 < 0xf0) ∨
      (0xf0 ≤ b % 256 ∧ b % 256 < 0xf8) ∨
      ((0x80 ≤ b % 256 ∧ b % 256 < 0xc0) ∨ 0xf8 ≤ b % 256) := by
  omega

theorem ConvertUTF8To32_snd (u8 : Nat → Nat) :
    (ConvertUTF8To32 u8).2 = CountUTF8Size (toUInt8 (u8 0)) := by
  unfold toUInt8
  rcases lead_byte_cases (u8 0) with h | h | h | h | h
  · rw [ConvertUTF8To32_one u8 h]; unfold CountUTF8Size; rw [if_pos h]
  · rw [ConvertUTF8To32_two u8 h]; unfold CountUTF8Size
    rw [if_neg (by omega), if_pos h]
  · rw [ConvertUTF8To32_three u8 h]; unfold CountUTF8Size
    rw [if_neg (by omega), if_neg (by omega), if_pos h]
  · rw [ConvertUTF8To32_four u8 h]; unfold CountUTF8Size
    rw [if_neg (by omega), if_neg (by omega), if_neg (by omega), if_pos h]
  · rw [ConvertUTF8To32_invalid u8 h]; unfold CountUTF8Size
    rw [if_neg (by omega), if_neg (by omega), if_neg (by omega), if_neg (by omega)]

/-- The decoder reads the first byte and the low 6 bits of the bytes that
follow it within the length of its class, and nothing else. -/
theorem ConvertUTF8To32_congr (u8 v8 : Nat → Nat) (h0 : u8 0 % 256 = v8 0 % 256)
    (h : ∀ i, 1 ≤ i → i < CountUTF8Size (toUInt8 (u8 0)) → u8 i % 64 = v8 i % 64) :
    ConvertUTF8To32 u8 = ConvertUTF8To32 v8 := by
  have hm : ∀ k, k ∣ 256 → u8 0 % k = v8 0 % k := by
    intro k hk
    rw [← Nat.mod_mod_of_dvd (u8 0) hk, ← Nat.mod_mod_of_dvd (v8 0) hk, h0]
  unfold toUInt8 at h
  rcases lead_byte_cases (u8 0) with c | c | c | c | c
  · rw [ConvertUTF8To32_one u8 c, ConvertUTF8To32_one v8 (by omega), h0]
  · have hc : CountUTF8Size (u8 0 % 256) = 2 := by
      unfold CountUTF8Size; rw [if_neg (by omega), if_pos c]
    rw [hc] at h
    rw [ConvertUTF8To32_two u8 c, ConvertUTF8To32_two v8 (by omega),
      hm 32 (by norm_num), h 1 (by omega) (by omega)]
  · have hc : CountUTF8Size (u8 0 % 256) = 3 := by
      unfold CountUTF8Size; rw [if_neg (by omega), if_neg (by omega), if_pos c]
    rw [hc] at h
    rw [ConvertUTF8To32_three u8 c, ConvertUTF8To32_three v8 (by omega),
      hm 16 (by norm_num), h 1 (by omega) (by omega), h 2 (by omega) (by omega)]
  · have hc : CountUTF8Size (u8 0 % 256) = 4 := by
      unfold CountUTF8Size
      rw [if_neg (by omega), if_neg (by omega), if_neg (by omega), if_pos c]
    rw [hc] at h
    rw [ConvertUTF8To32_four u8 c, ConvertUTF8To32_four v8 (by omega),
      hm 8 (by norm_num), h 1 (by omega) (by omega), h 2 (by omega) (by omega),
      h 3 (by omega) (by omega)]
  · rw [ConvertUTF8To32_invalid u8 c, ConvertUTF8To32_invalid v8 (by omega)]

/-! ## Reading from `bytesThen` and `cstr` at a general index -/

theorem bytesThen_lt (l : List Nat) (rest : Nat → Nat) (i : Nat) (h : i < l.length) :
    bytesThen l rest i = l.getD i 0 := by
  unfold bytesThen; rw [if_pos h]

theorem bytesThen_ge (l : List Nat) (rest : Nat → Nat) (i : Nat) (h : l.length ≤ i) :
    bytesThen l rest i = rest (i - l.length) := by
  unfold bytesThen; rw [if_neg (by omega)]

theorem cstr_lt (l : List Nat) (rest : Nat → Nat) (i : Nat) (h : i < l.length) :
    cstr l rest i = l.getD i 0 := by
  unfold cstr
  rw [bytesThen_lt _ _ _ (by rw [List.length_append]; omega)]
  rw [List.getD_eq_getElem?_getD, List.getD_eq_getElem?_getD, List.getElem?_append_left h]

theorem cstr_length (l : List Nat) (rest : Nat → Nat) : cstr l rest l.length = 0 := by
  unfold cstr
  rw [bytesThen_lt _ _ _ (by rw [List.length_append, List.length_singleton]; omega)]
  rw [List.getD_eq_getElem?_getD, List.getElem?_append_right (Nat.le_refl _)]
  simp

theorem cstr_gt (l : List Nat) (rest : Nat → Nat) (i : Nat) (h : l.length < i) :
    cstr l rest i = rest (i - l.length - 1) := by
  unfold cstr
  rw [bytesThen_ge _ _ _ (by rw [List.length_append, List.length_singleton]; omega)]
  rw [List.length_append, List.length_singleton, Nat.sub_add_eq]

theorem cstr_append (l m : List Nat) (rest : Nat → Nat) (j : Nat) :
    cstr (l ++ m) rest (l.length + j) = cstr m rest j := by
  unfold cstr bytesThen
  simp only [List.length_append, List.length_singleton]
  by_cases h : j < m.length + 1
  · rw [if_pos (by omega), if_pos h, List.append_assoc,
      List.getD_eq_getElem?_getD, List.getD_eq_getElem?_getD,
      List.getElem?_append_right (Nat.le_add_right _ _), Nat.add_sub_cancel_left]
  · rw [if_neg (by omega), if_neg h]
    congr 1; omega

theorem cstr_append_lt (l m : List Nat) (rest : Nat → Nat) (i : Nat) (h : i < l.length) :
    cstr (l ++ m) rest i = l.getD i 0 := by
  rw [cstr_lt _ _ _ (by rw [List.length_append]; omega)]
  rw [List.getD_eq_getElem?_getD, List.getD_eq_getElem?_getD, List.getElem?_append_left h]

/-! ## The loop of the string renderer, step by step -/

theorem WriteUnicode_of_gt {Color : Type} (font : FontBlob) (pos : Vector2D) (c : Nat)
    (color : Color) (h : 0x7f < c) :
    WriteUnicode font pos c color =
      WriteAscii font pos 0x3f color ++ WriteAscii font (pos + ⟨8, 0⟩) 0x3f color := by
  unfold WriteUnicode
  rw [if_neg (by omega)]

theorem WriteStringBody_some {Color : Type} (font : FontBlob) (pos : Vector2D)
    (str : Nat → Nat) (color : Color) (st : WriteStringState Color)
    (h : str st.s % 256 ≠ 0) :
    WriteStringBody font pos str color st =
      some ⟨st.s + (ConvertUTF8To32 (fun i => str (st.s + i))).2,
        st.x + (if IsHankaku (ConvertUTF8To32 (fun i => str (st.s + i))).1 then 1 else 2),
        st.writes ++ WriteUnicode font (pos + ⟨8 * st.x, 0⟩)
          (ConvertUTF8To32 (fun i => str (st.s + i))).1 color⟩ := by
  unfold WriteStringBody
  rw [if_neg h]

theorem WriteStringLoop_step {Color : Type} (font : FontBlob) (pos : Vector2D)
    (str : Nat → Nat) (color : Color) (fuel : Nat) (st st' : WriteStringState Color)
    (h : WriteStringBody font pos str color st = some st') :
    WriteStringLoop font pos str color (fuel + 1) st =
      WriteStringLoop font pos str color fuel st' := by
  rw [WriteStringLoop, h]

theorem WriteStringLoop_exit {Color : Type} (font : FontBlob) (pos : Vector2D)
    (str : Nat → Nat) (color : Color) (fuel : Nat) (st : WriteStringState Color)
    (h : str st.s % 256 = 0) :
    WriteStringLoop font pos str color (fuel + 1) st = some st := by
  rw [WriteStringLoop, WriteStringBody_end font pos str color st h]

/-- The body of the loop at a sequence that decodes to a code point above
`0x7F`: the pair of `?` glyphs is drawn and the cell counter advances by 2. -/
theorem WriteStringBody_wide {Color : Type} (font : FontBlob) (pos : Vector2D)
    (str : Nat → Nat) (color : Color) (st : WriteStringState Color)
    (h : str st.s % 256 ≠ 0)
    (hcp : 0x7f < (ConvertUTF8To32 (fun i => str (st.s + i))).1) :
    WriteStringBody font pos str color st =
      some ⟨st.s + (ConvertUTF8To32 (fun i => str (st.s + i))).2, st.x + 2,
        st.writes ++ (WriteAscii font (pos + ⟨8 * st.x, 0⟩) 0x3f color ++
          WriteAscii font (pos + ⟨8 * st.x, 0⟩ + ⟨8, 0⟩) 0x3f color)⟩ := by
  rw [WriteStringBody_some font pos str color st h, WriteUnicode_of_gt font _ _ color hcp]
  have hk : IsHankaku (ConvertUTF8To32 (fun i => str (st.s + i))).1 = false := by
    unfold IsHankaku
    exact decide_eq_false (by omega)
  rw [hk]
  rfl

/-! ## The placeholder glyphs, the font loader and the runs of the renderer: claims C11 to C14 -/

/-- C11: for a 2-, 3- or 4-byte sequence (lead byte `b0` of the class, followed
by the continuation bytes `conts`, each in `0x80..0xBF`) that decodes to a code
point above `0x7F`, `WriteString` on the string made of that sequence issues
exactly the writes of the glyph `?` at `pos` followed by those of the glyph `?`
at `pos + (8, 0)`, whatever the code point is, and ends with the cell counter
at 2; a character `c` that follows in the string is drawn at `pos + (16, 0)`. -/
theorem C11_WriteString_non_ascii {Color : Type} (font : FontBlob) (pos : Vector2D)
    (color : Color) (b0 : Nat) (conts : List Nat) (rest : Nat → Nat)
    (hlead : 0xC0 ≤ b0 ∧ b0 ≤ 0xF7) (hlen : conts.length + 1 = CountUTF8Size b0)
    (_hcont : ∀ b ∈ conts, 0x80 ≤ b ∧ b ≤ 0xBF)
    (hcp : 0x7F < (ConvertUTF8To32 (cstr (b0 :: conts) rest)).1) :
    (∀ fuel, 2 ≤ fuel →
      WriteString font pos (cstr (b0 :: conts) rest) color fuel =
        some ⟨conts.length + 1, 2,
          WriteAscii font pos 0x3f color ++ WriteAscii font (pos + ⟨8, 0⟩) 0x3f color⟩) ∧
      (∀ c fuel, 1 ≤ c → c ≤ 0x7F → 3 ≤ fuel →
        WriteString font pos (cstr (b0 :: conts ++ [c]) rest) color fuel =
          some ⟨conts.length + 2, 3,
            (WriteAscii font pos 0x3f color ++ WriteAscii font (pos + ⟨8, 0⟩) 0x3f color) ++
              WriteAscii font (pos + ⟨16, 0⟩) c color⟩) := by
  have hb : toUInt8 b0 = b0 := Nat.mod_eq_of_lt (by omega)
  have hs0 : cstr (b0 :: conts) rest 0 = b0 := cstr_lt _ _ 0 (Nat.succ_pos _)
  have hlen2 : (ConvertUTF8To32 (cstr (b0 :: conts) rest)).2 = conts.length + 1 := by
    rw [ConvertUTF8To32_snd, hs0, hb, hlen]
  constructor
  · intro fuel hfuel
    obtain ⟨n, rfl⟩ : ∃ n, fuel = n + 2 := ⟨fuel - 2, by omega⟩
    have hshift : (fun i => cstr (b0 :: conts) rest (0 + i)) = cstr (b0 :: conts) rest := by
      funext i; rw [Nat.zero_add]
    have hbody := WriteStringBody_wide font pos (cstr (b0 :: conts) rest) color ⟨0, 0, []⟩
      (by show cstr (b0 :: conts) rest 0 % 256 ≠ 0; rw [hs0]; omega)
      (by show 0x7f < (ConvertUTF8To32 (fun i => cstr (b0 :: conts) rest (0 + i))).1
          rw [hshift]; exact hcp)
    simp only [hshift, hlen2, Nat.zero_add, Int.zero_add, List.nil_append, Int.mul_zero,
      Vector2D.add_zero_add, WriteAscii_add_zero] at hbody
    unfold WriteString
    rw [WriteStringLoop_step _ _ _ _ _ _ _ hbody]
    exact WriteStringLoop_exit _ _ _ _ _ _
      (by show cstr (b0 :: conts) rest (conts.length + 1) % 256 = 0
          rw [show conts.length + 1 = (b0 :: conts).length from rfl, cstr_length])
  · intro c fuel hc1 hc2 hfuel
    obtain ⟨n, rfl⟩ : ∃ n, fuel = n + 3 := ⟨fuel - 3, by omega⟩
    have hl : b0 :: conts ++ [c] = (b0 :: conts) ++ [c] := rfl
    have hs0c : cstr (b0 :: conts ++ [c]) rest 0 = b0 := cstr_lt _ _ 0 (Nat.succ_pos _)
    have hdec : ConvertUTF8To32 (cstr (b0 :: conts ++ [c]) rest) =
        ConvertUTF8To32 (cstr (b0 :: conts) rest) := by
      apply ConvertUTF8To32_congr
      · rw [hs0c, hs0]
      · intro i _ hi
        rw [hs0c, hb, ← hlen] at hi
        rw [hl, cstr_append_lt _ _ _ _ (by show i < conts.length + 1; omega),
          cstr_lt _ _ _ (by show i < conts.length + 1; omega)]
    have hshift : (fun i => cstr (b0 :: conts ++ [c]) rest (0 + i)) =
        cstr (b0 :: conts ++ [c]) rest := by
      funext i; rw [Nat.zero_add]
    have hbody := WriteStringBody_wide font pos (cstr (b0 :: conts ++ [c]) rest) color
      ⟨0, 0, []⟩ (by show cstr (b0 :: conts ++ [c]) rest 0 % 256 ≠ 0; rw [hs0c]; omega)
      (by show 0x7f < (ConvertUTF8To32 (fun i => cstr (b0 :: conts ++ [c]) rest (0 + i))).1
          rw [hshift, hdec]; exact hcp)
    simp only [hshift, hdec, hlen2, Nat.zero_add, Int.zero_add, List.nil_append,
      Int.mul_zero, Vector2D.add_zero_add, WriteAscii_add_zero] at hbody
    have hc : cstr (b0 :: conts ++ [c]) rest (conts.length + 1) = c := by
      have := cstr_append (b0 :: conts) [c] rest 0
      rw [Nat.add_zero] at this
      rw [hl, show conts.length + 1 = (b0 :: conts).length from rfl, this]
      exact cstr_lt [c] rest 0 (Nat.succ_pos _)
    have hbody2 := WriteStringBody_ascii font pos (cstr (b0 :: conts ++ [c]) rest) color
      ⟨conts.length + 1, 2,
        WriteAscii font pos 0x3f color ++ WriteAscii font (pos + ⟨8, 0⟩) 0x3f color⟩
      (by show 1 ≤ cstr (b0 :: conts ++ [c]) rest (conts.length + 1); rw [hc]; exact hc1)
      (by show cstr (b0 :: conts ++ [c]) rest (conts.length + 1) ≤ 0x7f; rw [hc]; exact hc2)
    simp only [hc] at hbody2
    unfold WriteString
    rw [WriteStringLoop_step _ _ _ _ _ _ _ hbody, WriteStringLoop_step _ _ _ _ _ _ _ hbody2]
    have hend : cstr (b0 :: conts ++ [c]) rest (conts.length + 1 + 1) % 256 = 0 := by
      have h := cstr_length (b0 :: conts ++ [c]) rest
      rw [show (b0 :: conts ++ [c]).length = conts.length + 1 + 1 by simp] at h
      rw [h]
    rw [WriteStringLoop_exit _ _ _ _ _ _ hend]
    rfl

/-- Witness of C11 at the string `"é"` (`0xC3 0xA9`) of the specification, with
a font whose glyph `?` has the single pixel `(7, 0)`. -/
theorem C11_WriteString_non_ascii_witness :
    WriteString ⟨4096, fun i => if i = 0x3f0 then 1 else 0⟩ ⟨0, 0⟩
        (cstr [0xC3, 0xA9] (fun _ => 0xFF)) (7 : Nat) 2 =
      some ⟨2, 2, [⟨⟨7, 0⟩, 7⟩, ⟨⟨15, 0⟩, 7⟩]⟩ :=
  ((C11_WriteString_non_ascii ⟨4096, fun i => if i = 0x3f0 then 1 else 0⟩ ⟨0, 0⟩ (7 : Nat)
    0xC3 [0xA9] (fun _ => 0xFF) (by decide) (by decide) (by decide) (by decide)).1 2
    (by decide)).trans (by decide)

/-- C12, as stated, fails: with the font engine initialised, the file found,
the flag of the pair false, and a `LoadFile` that returns 4 for a file of
declared size 3 (not fewer bytes than the declared size), `InitializeFont` does
not complete: it deletes the buffer and ends with `exit(1)`. -/
theorem C12_InitializeFont_exits_on_other_count :
    InitializeFont 0 (some ⟨3⟩, false) (fun _ _ => (fun _ => 0, 4)) = .exited 1 true true ∧
      ¬ ((fun (_ : Nat) (_ : DirectoryEntry) => ((fun (_ : Nat) => 0), 4)) 3 ⟨3⟩).2 < 3 ∧
      ¬ ∃ buf, InitializeFont 0 (some ⟨3⟩, false) (fun _ _ => (fun _ => 0, 4)) =
        .returned buf := by
  have h : InitializeFont 0 (some ⟨3⟩, false) (fun _ _ => (fun _ => 0, 4)) =
      .exited 1 true true := by decide
  refine ⟨h, by decide, ?_⟩
  rintro ⟨buf, hb⟩
  rw [h] at hb
  exact InitializeFontEnd.noConfusion hb

/-- C12 (amended): `InitializeFont` ends with `exit(1)` when the font engine
fails to initialize, when `FindFile` returns no entry, when the match is
flagged by the second component of the pair, and when `LoadFile` returns a
number of bytes different from the declared size of the file, fewer or more, in
which case the buffer has been allocated and deleted before the exit; when none
of these occurs it returns and leaves in `nihongo_buf` a buffer of exactly
`file_size` bytes, the bytes `LoadFile` stored. -/
theorem C12_InitializeFont_outcomes (ftInit : Int) (findFile : Option DirectoryEntry × Bool)
    (loadFile : Nat → DirectoryEntry → (Nat → Nat) × Nat) :
    (ftInit ≠ 0 → InitializeFont ftInit findFile loadFile = .exited 1 false false) ∧
      (findFile.1 = none → InitializeFont ftInit findFile loadFile = .exited 1 false false) ∧
      (findFile.2 = true → InitializeFont ftInit findFile loadFile = .exited 1 false false) ∧
      (∀ entry, ftInit = 0 → findFile = (some entry, false) →
        (loadFile entry.file_size entry).2 ≠ entry.file_size →
        InitializeFont ftInit findFile loadFile = .exited 1 true true) ∧
      (∀ entry, ftInit = 0 → findFile = (some entry, false) →
        (loadFile entry.file_size entry).2 = entry.file_size →
        ∃ buf, InitializeFont ftInit findFile loadFile = .returned buf ∧
          buf.length = entry.file_size ∧
          ∀ i, i < entry.file_size → buf.getD i 0 = (loadFile entry.file_size entry).1 i) := by
  refine ⟨?_, ?_, ?_, ?_, ?_⟩
  · intro h
    unfold InitializeFont
    rw [if_pos h]
  · intro h
    obtain ⟨e, d⟩ := findFile
    simp only at h
    subst h
    unfold InitializeFont
    split <;> rfl
  · intro h
    obtain ⟨e, d⟩ := findFile
    simp only at h
    subst h
    unfold InitializeFont
    split
    · rfl
    · cases e <;> rfl
  · intro entry h0 hf hne
    subst h0; subst hf
    simp only [InitializeFont, ne_eq, not_true_eq_false, if_false, Bool.false_eq_true]
    rw [if_pos hne]
  · intro entry h0 hf heq
    subst h0; subst hf
    refine ⟨(List.range entry.file_size).map (loadFile entry.file_size entry).1, ?_, ?_, ?_⟩
    · simp only [InitializeFont, ne_eq, not_true_eq_false, if_false, Bool.false_eq_true]
      rw [if_neg (by rw [heq]; exact fun h => h rfl)]
    · rw [List.length_map, List.length_range]
    · intro i hi
      rw [List.getD_eq_getElem?_getD, List.getElem?_map, List.getElem?_range hi]
      rfl

/-- Witness of C12 (amended): a file of three bytes that is found and loaded in
full. -/
theorem C12_InitializeFont_outcomes_witness :
    ∃ buf, InitializeFont 0 (some ⟨3⟩, false) (fun len _ => (fun i => i + 1, len)) =
        .returned buf ∧ buf.length = 3 ∧ ∀ i, i < 3 → buf.getD i 0 = i + 1 :=
  (C12_InitializeFont_outcomes 0 (some ⟨3⟩, false)
    (fun len _ => (fun i => i + 1, len))).2.2.2.2 ⟨3⟩ rfl rfl rfl

/-- The result of the loop does not depend on the fuel once it suffices. -/
theorem WriteStringLoop_mono {Color : Type} (font : FontBlob) (pos : Vector2D)
    (str : Nat → Nat) (color : Color) (n k : Nat) :
    ∀ (st r : WriteStringState Color), WriteStringLoop font pos str color n st = some r →
      WriteStringLoop font pos str color (n + k) st = some r := by
  induction n with
  | zero => intro st r h; exact absurd h (by simp [WriteStringLoop])
  | succ n ih =>
    intro st r h
    rw [Nat.add_right_comm]
    cases hb : WriteStringBody font pos str color st with
    | none =>
      rw [WriteStringLoop, hb] at h
      rw [WriteStringLoop, hb]
      exact h
    | some st' =>
      rw [WriteStringLoop_step _ _ _ _ _ _ _ hb] at h
      rw [WriteStringLoop_step _ _ _ _ _ _ _ hb]
      exact ih st' r h

theorem WriteStringLoop_unique {Color : Type} (font : FontBlob) (pos : Vector2D)
    (str : Nat → Nat) (color : Color) (n m : Nat) (st r1 r2 : WriteStringState Color)
    (h1 : WriteStringLoop font pos str color n st = some r1)
    (h2 : WriteStringLoop font pos str color m st = some r2) : r1 = r2 := by
  have e1 := WriteStringLoop_mono font pos str color n m st r1 h1
  have e2 := WriteStringLoop_mono font pos str color m n st r2 h2
  rw [Nat.add_comm] at e2
  rw [e1] at e2
  exact Option.some.inj e2

/-- The body of the loop on the string whose only character is the lead byte
`0xC3`: the terminator is taken as the continuation byte, the pair of `?` is
drawn, and the byte cursor moves to index 2, after the terminator. -/
theorem WriteStringBody_lone_lead {Color : Type} (font : FontBlob) (pos : Vector2D)
    (color : Color) (rest : Nat → Nat) :
    WriteStringBody font pos (cstr [0xC3] rest) color ⟨0, 0, []⟩ =
      some ⟨2, 2,
        WriteAscii font pos 0x3f color ++ WriteAscii font (pos + ⟨8, 0⟩) 0x3f color⟩ := by
  have hs0 : cstr [0xC3] rest 0 = 0xC3 := cstr_lt _ _ 0 (Nat.succ_pos _)
  have hs1 : cstr [0xC3] rest 1 = 0 := cstr_length [0xC3] rest
  have hshift : (fun i => cstr [0xC3] rest (0 + i)) = cstr [0xC3] rest := by
    funext i; rw [Nat.zero_add]
  have hdec : ConvertUTF8To32 (cstr [0xC3] rest) = (0xC0, 2) := by
    rw [ConvertUTF8To32_two _ (by rw [hs0]; decide), hs0, hs1]
  have hb := WriteStringBody_wide font pos (cstr [0xC3] rest) color ⟨0, 0, []⟩
    (by show cstr [0xC3] rest 0 % 256 ≠ 0; rw [hs0]; decide)
    (by show 0x7f < (ConvertUTF8To32 (fun i => cstr [0xC3] rest (0 + i))).1
        rw [hshift, hdec]; decide)
  simp only [hshift, hdec, Nat.zero_add, Int.zero_add, List.nil_append, Int.mul_zero,
    Vector2D.add_zero_add, WriteAscii_add_zero] at hb
  exact hb

/-- C13 (failing input): the null-terminated string whose only character is the
lead byte `0xC3`, once with a zero byte after its terminator and once with the
bytes `0x41 0x00` after it.  The two memories hold the same string, yet
`WriteString` issues the pair of `?` in the first case and the pair of `?`
followed by the glyph of `A` at `pos + (16, 0)` in the second; with a font in
which these glyphs have one pixel each the two sequences of writes, and the
pixels they produce on a surface of zeros, differ. -/
theorem C13_WriteString_depends_on_bytes_after_terminator {Color : Type} (font : FontBlob)
    (pos : Vector2D) (color : Color) :
    (cstr [0xC3] (fun _ => 0) 0 = cstr [0xC3] (fun i => if i = 0 then 0x41 else 0) 0 ∧
      cstr [0xC3] (fun _ => 0) 1 = 0 ∧
      cstr [0xC3] (fun i => if i = 0 then 0x41 else 0) 1 = 0) ∧
      WriteString font pos (cstr [0xC3] (fun _ => 0)) color 2 =
        some ⟨2, 2,
          WriteAscii font pos 0x3f color ++ WriteAscii font (pos + ⟨8, 0⟩) 0x3f color⟩ ∧
      WriteString font pos (cstr [0xC3] (fun i => if i = 0 then 0x41 else 0)) color 3 =
        some ⟨3, 3,
          (WriteAscii font pos 0x3f color ++ WriteAscii font (pos + ⟨8, 0⟩) 0x3f color) ++
            WriteAscii font (pos + ⟨16, 0⟩) 0x41 color⟩ ∧
      WriteString ⟨4096, fun i => if i = 0x410 then 0x80 else if i = 0x3f0 then 1 else 0⟩
          ⟨0, 0⟩ (cstr [0xC3] (fun _ => 0)) (7 : Nat) 2 =
        some ⟨2, 2, [⟨⟨7, 0⟩, 7⟩, ⟨⟨15, 0⟩, 7⟩]⟩ ∧
      WriteString ⟨4096, fun i => if i = 0x410 then 0x80 else if i = 0x3f0 then 1 else 0⟩
          ⟨0, 0⟩ (cstr [0xC3] (fun i => if i = 0 then 0x41 else 0)) (7 : Nat) 3 =
        some ⟨3, 3, [⟨⟨7, 0⟩, 7⟩, ⟨⟨15, 0⟩, 7⟩, ⟨⟨16, 0⟩, 7⟩]⟩ ∧
      applyWrites (fun _ => (0 : Nat)) [⟨⟨7, 0⟩, 7⟩, ⟨⟨15, 0⟩, 7⟩] ⟨16, 0⟩ ≠
        applyWrites (fun _ => (0 : Nat)) [⟨⟨7, 0⟩, 7⟩, ⟨⟨15, 0⟩, 7⟩, ⟨⟨16, 0⟩, 7⟩] ⟨16, 0⟩ := by
  refine ⟨⟨by decide, by decide, by decide⟩, ?_, ?_, by decide, by decide, by decide⟩
  · unfold WriteString
    rw [WriteStringLoop_step _ _ _ _ _ _ _ (WriteStringBody_lone_lead font pos color _)]
    exact WriteStringLoop_exit _ _ _ _ _ _
      (by show cstr [0xC3] (fun _ => 0) 2 % 256 = 0
          rw [cstr_gt _ _ 2 (by decide)])
  · have h2 : cstr [0xC3] (fun i => if i = 0 then 0x41 else 0) 2 = 0x41 := by decide
    have h3 : cstr [0xC3] (fun i => if i = 0 then 0x41 else 0) 3 = 0 := by decide
    have hbody2 := WriteStringBody_ascii font pos
      (cstr [0xC3] (fun i => if i = 0 then 0x41 else 0)) color
      ⟨2, 2, WriteAscii font pos 0x3f color ++ WriteAscii font (pos + ⟨8, 0⟩) 0x3f color⟩
      (by show 1 ≤ cstr [0xC3] (fun i => if i = 0 then 0x41 else 0) 2; rw [h2]; decide)
      (by show cstr [0xC3] (fun i => if i = 0 then 0x41 else 0) 2 ≤ 0x7f; rw [h2]; decide)
    simp only [h2] at hbody2
    unfold WriteString
    rw [WriteStringLoop_step _ _ _ _ _ _ _ (WriteStringBody_lone_lead font pos color _),
      WriteStringLoop_step _ _ _ _ _ _ _ hbody2]
    rw [WriteStringLoop_exit _ _ _ _ _ _
      (by show cstr [0xC3] (fun i => if i = 0 then 0x41 else 0) (2 + 1) % 256 = 0
          rw [h3])]
    rfl

/-- What an execution of the body of the loop does, read off its result. -/
theorem WriteStringBody_eq_some {Color : Type} (font : FontBlob) (pos : Vector2D)
    (str : Nat → Nat) (color : Color) (st st' : WriteStringState Color)
    (h : WriteStringBody font pos str color st = some st') :
    str st.s % 256 ≠ 0 ∧
      st'.s = st.s + (ConvertUTF8To32 (fun i => str (st.s + i))).2 ∧
      st'.x = st.x + cellWidth (ConvertUTF8To32 (fun i => str (st.s + i))).1 ∧
      st'.writes = st.writes ++ WriteUnicode font (pos + ⟨8 * st.x, 0⟩)
        (ConvertUTF8To32 (fun i => str (st.s + i))).1 color := by
  by_cases h0 : str st.s % 256 = 0
  · rw [WriteStringBody_end font pos str color st h0] at h
    exact absurd h (by simp)
  · rw [WriteStringBody_some font pos str color st h0] at h
    have h := Option.some.inj h
    subst h
    refine ⟨h0, rfl, ?_, rfl⟩
    show st.x + _ = st.x + _
    unfold IsHankaku cellWidth
    by_cases hc : (ConvertUTF8To32 (fun i => str (st.s + i))).1 ≤ 0x7f
    · rw [decide_eq_true hc, if_pos rfl, if_pos hc]
    · rw [decide_eq_false hc, if_neg (by simp), if_neg hc]

/-- The byte cursor never moves backwards. -/
theorem WriteStringLoop_cursor_le {Color : Type} (font : FontBlob) (pos : Vector2D)
    (str : Nat → Nat) (color : Color) (n : Nat) :
    ∀ (st r : WriteStringState Color), WriteStringLoop font pos str color n st = some r →
      st.s ≤ r.s := by
  induction n with
  | zero => intro st r h; exact absurd h (by simp [WriteStringLoop])
  | succ n ih =>
    intro st r h
    cases hb : WriteStringBody font pos str color st with
    | none =>
      rw [WriteStringLoop, hb] at h
      rw [← Option.some.inj h]
    | some st' =>
      rw [WriteStringLoop_step _ _ _ _ _ _ _ hb] at h
      have h1 := (WriteStringBody_eq_some font pos str color st st' hb).2.1
      have h2 := ih st' r h
      omega

/-- C14 (failing input): on the null-terminated string whose only character is
the lead byte `0xC3`, the terminator is at index 1, the body of the loop decodes
a 2-byte sequence and moves the byte cursor to index 2, past the terminator, and
no run of `WriteString` ends with the cursor on the terminator; when the memory
after the string is zero the loop ends with the cursor at index 2.  On the
string whose only character is the lead byte `0xE3` the decoded code point
contains the low 6 bits of the byte located after the terminator. -/
theorem C14_WriteString_passes_terminator {Color : Type} (font : FontBlob) (pos : Vector2D)
    (color : Color) (rest : Nat → Nat) :
    cstr [0xC3] rest 1 = 0 ∧
      WriteStringBody font pos (cstr [0xC3] rest) color ⟨0, 0, []⟩ =
        some ⟨2, 2,
          WriteAscii font pos 0x3f color ++ WriteAscii font (pos + ⟨8, 0⟩) 0x3f color⟩ ∧
      (∀ fuel r, WriteString font pos (cstr [0xC3] rest) color fuel = some r → 2 ≤ r.s) ∧
      WriteString font pos (cstr [0xC3] (fun _ => 0)) color 2 =
        some ⟨2, 2,
          WriteAscii font pos 0x3f color ++ WriteAscii font (pos + ⟨8, 0⟩) 0x3f color⟩ ∧
      cstr [0xE3] rest 1 = 0 ∧
      ConvertUTF8To32 (cstr [0xE3] rest) = (0x3000 + rest 0 % 64, 3) := by
  have hbody : ∀ rest' : Nat → Nat,
      WriteStringBody font pos (cstr [0xC3] rest') color ⟨0, 0, []⟩ =
        some ⟨2, 2,
          WriteAscii font pos 0x3f color ++ WriteAscii font (pos + ⟨8, 0⟩) 0x3f color⟩ := by
    intro rest'
    have hs0 : cstr [0xC3] rest' 0 = 0xC3 := cstr_lt _ _ 0 (Nat.succ_pos _)
    have hs1 : cstr [0xC3] rest' 1 = 0 := cstr_length [0xC3] rest'
    have hshift : (fun i => cstr [0xC3] rest' (0 + i)) = cstr [0xC3] rest' := by
      funext i; rw [Nat.zero_add]
    have hdec : ConvertUTF8To32 (cstr [0xC3] rest') = (0xC0, 2) := by
      rw [ConvertUTF8To32_two _ (by rw [hs0]; decide), hs0, hs1]
    have hb := WriteStringBody_wide font pos (cstr [0xC3] rest') color ⟨0, 0, []⟩
      (by show cstr [0xC3] rest' 0 % 256 ≠ 0; rw [hs0]; decide)
      (by show 0x7f < (ConvertUTF8To32 (fun i => cstr [0xC3] rest' (0 + i))).1
          rw [hshift, hdec]; decide)
    simp only [hshift, hdec, Nat.zero_add, Int.zero_add, List.nil_append, Int.mul_zero,
      Vector2D.add_zero_add, WriteAscii_add_zero] at hb
    exact hb
  refine ⟨cstr_length [0xC3] rest, hbody rest, ?_, ?_, cstr_length [0xE3] rest, ?_⟩
  · intro fuel r h
    cases fuel with
    | zero => exact absurd h (by simp [WriteString, WriteStringLoop])
    | succ n =>
      unfold WriteString at h
      rw [WriteStringLoop_step _ _ _ _ _ _ _ (hbody rest)] at h
      exact WriteStringLoop_cursor_le font pos _ color n _ r h
  · unfold WriteString
    rw [WriteStringLoop_step _ _ _ _ _ _ _ (hbody _)]
    exact WriteStringLoop_exit _ _ _ _ _ _
      (by show cstr [0xC3] (fun _ => 0) 2 % 256 = 0
          rw [cstr_gt _ _ 2 (by decide)])
  · have hs0 : cstr [0xE3] rest 0 = 0xE3 := cstr_lt _ _ 0 (Nat.succ_pos _)
    have hs1 : cstr [0xE3] rest 1 = 0 := cstr_length [0xE3] rest
    have hs2 : cstr [0xE3] rest 2 = rest 0 := cstr_gt _ _ 2 (by decide)
    rw [ConvertUTF8To32_three _ (by rw [hs0]; decide), hs0, hs1, hs2]

/-! ## The decoder: claims C17 and C18 -/

/-- C17: for a lead byte of the 2-, 3- or 4-byte class the result of
`ConvertUTF8To32` depends only on the lead byte and on the low 6 bits of the 1,
2 or 3 bytes that follow: a sequence `v8` with the same lead byte whose
following bytes agree with those of `u8` under `& 0x3F`, and whose later bytes
are arbitrary, decodes to the same pair.  The decoder is not injective: the
bytes `0xC1 0x81` and the byte `0x41` both decode to the code point `0x41`. -/
theorem C17_continuation_not_validated (u8 v8 : Nat → Nat)
    (hlead : 0xC0 ≤ u8 0 ∧ u8 0 ≤ 0xF7) (h0 : v8 0 = u8 0)
    (h : ∀ i, 1 ≤ i → i < CountUTF8Size (u8 0) → v8 i &&& 0x3F = u8 i &&& 0x3F) :
    ConvertUTF8To32 v8 = ConvertUTF8To32 u8 ∧
      (ConvertUTF8To32 (bytesThen [0xC1, 0x81] (fun _ => 0))).1 = 0x41 ∧
      (ConvertUTF8To32 (bytesThen [0x41] (fun _ => 0))).1 = 0x41 := by
  have hand : ∀ x : Nat, x &&& 0x3F = x % 64 := by
    intro x
    have := Nat.and_pow_two_sub_one_eq_mod x 6
    norm_num at this
    exact this
  refine ⟨?_, by decide, by decide⟩
  apply ConvertUTF8To32_congr
  · rw [h0]
  · intro i h1 h2
    rw [h0, show toUInt8 (u8 0) = u8 0 from Nat.mod_eq_of_lt (by omega)] at h2
    rw [← hand, ← hand]
    exact h i h1 h2

/-- Witness of C17: `0xC3 0xA9` and `0xC3 0x29` (the second byte is not a
continuation byte), followed by different bytes, decode to the same pair. -/
theorem C17_continuation_not_validated_witness :
    ConvertUTF8To32 (bytesThen [0xC3, 0x29] (fun _ => 1)) =
      ConvertUTF8To32 (bytesThen [0xC3, 0xA9] (fun _ => 0)) :=
  (C17_continuation_not_validated (bytesThen [0xC3, 0xA9] (fun _ => 0))
    (bytesThen [0xC3, 0x29] (fun _ => 1)) (by decide) (by decide)
    (by
      intro i h1 h2
      have hi : i = 1 := by
        have : CountUTF8Size (bytesThen [0xC3, 0xA9] (fun _ => 0) 0) = 2 := by decide
        omega
      subst hi
      decide)).1

/-- C18: the code point returned by `ConvertUTF8To32` is below `0x80` when the
returned length is 1, below `0x800` when it is 2, below `0x10000` when it is 3,
below `0x200000` when it is 4, and is 0 when the length is 0: no bit of the sign
extension of a negative `char` reaches the result. -/
theorem C18_code_point_range (u8 : Nat → Nat) :
    ((ConvertUTF8To32 u8).2 = 1 → (ConvertUTF8To32 u8).1 < 0x80) ∧
      ((ConvertUTF8To32 u8).2 = 2 → (ConvertUTF8To32 u8).1 < 0x800) ∧
      ((ConvertUTF8To32 u8).2 = 3 → (ConvertUTF8To32 u8).1 < 0x10000) ∧
      ((ConvertUTF8To32 u8).2 = 4 → (ConvertUTF8To32 u8).1 < 0x200000) ∧
      ((ConvertUTF8To32 u8).2 = 0 → (ConvertUTF8To32 u8).1 = 0) := by
  rcases lead_byte_cases (u8 0) with c | c | c | c | c
  · rw [ConvertUTF8To32_one u8 c]
    refine ⟨fun _ => c, ?_, ?_, ?_, ?_⟩ <;> intro h <;> simp at h
  · rw [ConvertUTF8To32_two u8 c]
    refine ⟨?_, fun _ => ?_, ?_, ?_, ?_⟩
    · intro h; simp at h
    · show u8 0 % 32 * 64 + u8 1 % 64 < 0x800
      omega
    all_goals intro h; simp at h
  · rw [ConvertUTF8To32_three u8 c]
    refine ⟨?_, ?_, fun _ => ?_, ?_, ?_⟩
    · intro h; simp at h
    · intro h; simp at h
    · show u8 0 % 16 * 4096 + u8 1 % 64 * 64 + u8 2 % 64 < 0x10000
      omega
    all_goals intro h; simp at h
  · rw [ConvertUTF8To32_four u8 c]
    refine ⟨?_, ?_, ?_, fun _ => ?_, ?_⟩
    · intro h; simp at h
    · intro h; simp at h
    · intro h; simp at h
    · show u8 0 % 8 * 262144 + u8 1 % 64 * 4096 + u8 2 % 64 * 64 + u8 3 % 64 < 0x200000
      omega
    · intro h; simp at h
  · rw [ConvertUTF8To32_invalid u8 c]
    refine ⟨?_, ?_, ?_, ?_, fun _ => rfl⟩ <;> intro h <;> simp at h

/-- Witness of C18 at the bytes `0xF7 0xFF 0xFF 0xFF`, all negative as `char`:
the result is `(0x1FFFFF, 4)`. -/
theorem C18_code_point_range_witness :
    ConvertUTF8To32 (bytesThen [0xF7, 0xFF, 0xFF, 0xFF] (fun _ => 0)) = (0x1FFFFF, 4) ∧
      (ConvertUTF8To32 (bytesThen [0xF7, 0xFF, 0xFF, 0xFF] (fun _ => 0))).1 < 0x200000 :=
  ⟨by decide,
    (C18_code_point_range (bytesThen [0xF7, 0xFF, 0xFF, 0xFF] (fun _ => 0))).2.2.2.1
      (by decide)⟩

/-! ## The string renderer on encoded code points: claim C15 -/

/-- Every write of `WriteAscii` carries the color given. -/
theorem WriteAscii_color {Color : Type} (font : FontBlob) (pos : Vector2D) (c : Nat)
    (color : Color) (w : PixelWrite Color) (hw : w ∈ WriteAscii font pos c color) :
    w.color = color := by
  cases hg : GetFont font c with
  | none =>
    unfold WriteAscii at hw
    rw [hg] at hw
    exact absurd hw (List.not_mem_nil _)
  | some g =>
    obtain ⟨dx, dy, _, _, _, rfl⟩ := (mem_WriteAscii font pos c color g hg w).mp hw
    rfl

/-- Every write of `WriteUnicode` carries the color given. -/
theorem WriteUnicode_color {Color : Type} (font : FontBlob) (pos : Vector2D) (c : Nat)
    (color : Color) (w : PixelWrite Color) (hw : w ∈ WriteUnicode font pos c color) :
    w.color = color := by
  by_cases h : c ≤ 0x7f
  · rw [WriteUnicode_of_le font pos c color h] at hw
    exact WriteAscii_color font pos c color w hw
  · rw [WriteUnicode_of_gt font pos c color (by omega), List.mem_append] at hw
    rcases hw with hw | hw
    · exact WriteAscii_color font pos 0x3f color w hw
    · exact WriteAscii_color font _ 0x3f color w hw

/-- A run of the loop that exits after executing its body `n` times ends in the
state `WriteStringIter` gives for `n`. -/
theorem WriteStringLoop_eq_iter {Color : Type} (font : FontBlob) (pos : Vector2D)
    (str : Nat → Nat) (color : Color) (fuel : Nat) :
    ∀ (st r : WriteStringState Color), WriteStringLoop font pos str color fuel st = some r →
      ∃ n, n < fuel ∧ WriteStringIter font pos str color n st = some r ∧
        WriteStringBody font pos str color r = none := by
  induction fuel with
  | zero => intro st r h; exact absurd h (by simp [WriteStringLoop])
  | succ k ih =>
    intro st r h
    cases hb : WriteStringBody font pos str color st with
    | none =>
      rw [WriteStringLoop, hb] at h
      have h := Option.some.inj h
      subst h
      exact ⟨0, Nat.succ_pos _, rfl, hb⟩
    | some st' =>
      rw [WriteStringLoop_step _ _ _ _ _ _ _ hb] at h
      obtain ⟨n, hn, hit, hend⟩ := ih st' r h
      refine ⟨n + 1, by omega, ?_, hend⟩
      rw [WriteStringIter, hb]
      exact hit

/-- A sequence of writes of one color sets the positions it names to that
color and leaves the others as they are. -/
theorem applyWrites_uniform {Color : Type} (color : Color) (ws : List (PixelWrite Color)) :
    ∀ (surface : Vector2D → Color), (∀ w ∈ ws, w.color = color) → ∀ q : Vector2D,
      applyWrites surface ws q = if q ∈ ws.map (fun w => w.pos) then color else surface q := by
  induction ws with
  | nil => intro surface _ q; simp [applyWrites]
  | cons w ws ih =>
    intro surface h q
    have hw : w.color = color := h w (List.mem_cons_self _ _)
    have ih' := ih (surfaceWrite surface w) (fun v hv => h v (List.mem_cons_of_mem _ hv)) q
    unfold applyWrites at ih' ⊢
    rw [List.foldl_cons, ih']
    unfold surfaceWrite
    by_cases h1 : q ∈ ws.map (fun w => w.pos)
    · rw [if_pos h1, if_pos (by rw [List.map_cons]; exact List.mem_cons_of_mem _ h1)]
    · rw [if_neg h1]
      by_cases h2 : q = w.pos
      · rw [if_pos h2, if_pos (by rw [List.map_cons, h2]; exact List.mem_cons_self _ _), hw]
      · rw [if_neg h2, if_neg (by
          rw [List.map_cons, List.mem_cons]
          exact fun h => h.elim h2 h1)]

/-- Applying twice a sequence of writes of one color is applying it once. -/
theorem applyWrites_twice {Color : Type} (color : Color) (ws : List (PixelWrite Color))
    (h : ∀ w ∈ ws, w.color = color) (surface : Vector2D → Color) :
    applyWrites (applyWrites surface ws) ws = applyWrites surface ws := by
  funext q
  rw [applyWrites_uniform color ws _ h q, applyWrites_uniform color ws surface h q]
  split <;> rfl

/-- Every write of a run of the loop carries the color given. -/
theorem WriteStringLoop_colors {Color : Type} (font : FontBlob) (pos : Vector2D)
    (str : Nat → Nat) (color : Color) (n : Nat) :
    ∀ (st r : WriteStringState Color), WriteStringLoop font pos str color n st = some r →
      (∀ w ∈ st.writes, w.color = color) → ∀ w ∈ r.writes, w.color = color := by
  induction n with
  | zero => intro st r h; exact absurd h (by simp [WriteStringLoop])
  | succ n ih =>
    intro st r h hst
    cases hb : WriteStringBody font pos str color st with
    | none =>
      rw [WriteStringLoop, hb] at h
      rw [← Option.some.inj h]
      exact hst
    | some st' =>
      rw [WriteStringLoop_step _ _ _ _ _ _ _ hb] at h
      refine ih st' r h ?_
      intro w hw
      rw [(WriteStringBody_eq_some font pos str color st st' hb).2.2.2, List.mem_append] at hw
      rcases hw with hw | hw
      · exact hst w hw
      · exact WriteUnicode_color font _ _ color w hw

/-- C19: on every surface, applying the writes of `WriteAscii` for a character,
position and color twice in succession gives the same surface as applying them
once; likewise for `WriteUnicode`, and for `WriteString` on every string on
which it terminates. -/
theorem C19_redraw_idempotent {Color : Type} (surface : Vector2D → Color) (font : FontBlob)
    (pos : Vector2D) (color : Color) (c u32 : Nat) (str : Nat → Nat) (fuel : Nat)
    (r : WriteStringState Color) (hr : WriteString font pos str color fuel = some r) :
    applyWrites (applyWrites surface (WriteAscii font pos c color))
        (WriteAscii font pos c color) = applyWrites surface (WriteAscii font pos c color) ∧
      applyWrites (applyWrites surface (WriteUnicode font pos u32 color))
        (WriteUnicode font pos u32 color) =
        applyWrites surface (WriteUnicode font pos u32 color) ∧
      applyWrites (applyWrites surface r.writes) r.writes = applyWrites surface r.writes := by
  refine ⟨?_, ?_, ?_⟩
  · exact applyWrites_twice color _
      (fun w hw => WriteAscii_color font pos c color w hw) surface
  · exact applyWrites_twice color _
      (fun w hw => WriteUnicode_color font pos u32 color w hw) surface
  · exact applyWrites_twice color _
      (WriteStringLoop_colors font pos str color fuel _ r hr
        (fun w hw => absurd hw (List.not_mem_nil _))) surface

/-- Witness of C19 on the string `"A"`: drawing it twice on a surface of zeros
leaves the pixel `(3, 0)` at the color 7, as drawing it once does. -/
theorem C19_redraw_idempotent_witness :
    WriteString ⟨4096, fun i => if i = 0x410 then 0x18 else 0⟩ ⟨0, 0⟩
        (cstr [0x41] (fun _ => 0xFF)) (7 : Nat) 2 = some ⟨1, 1, [⟨⟨3, 0⟩, 7⟩, ⟨⟨4, 0⟩, 7⟩]⟩ ∧
      applyWrites (applyWrites (fun _ => (0 : Nat)) [⟨⟨3, 0⟩, 7⟩, ⟨⟨4, 0⟩, 7⟩])
        [⟨⟨3, 0⟩, 7⟩, ⟨⟨4, 0⟩, 7⟩] =
        applyWrites (fun _ => (0 : Nat)) [⟨⟨3, 0⟩, 7⟩, ⟨⟨4, 0⟩, 7⟩] :=
  ⟨by decide,
    (C19_redraw_idempotent (fun _ => (0 : Nat))
      ⟨4096, fun i => if i = 0x410 then 0x18 else 0⟩ ⟨0, 0⟩ (7 : Nat) 0x41 0xE9
      (cstr [0x41] (fun _ => 0xFF)) 2 ⟨1, 1, [⟨⟨3, 0⟩, 7⟩, ⟨⟨4, 0⟩, 7⟩]⟩ (by decide)).2.2⟩

end Font
